import Mathlib

/-!
Verification of the address-extraction core of the courier-address-scanner
application (`src/App.jsx`).

Strings are modelled as lists of characters (`String` is a wrapper).  The
UK/NI postcode regular expression `/\b[A-Z]{1,2}\d[A-Z\d]?\s*\d[A-Z]{2}\b/i`,
the noise/validity classifiers and the backward address assembler are embedded
as executable functions mirroring the JavaScript source line by line.

Modelling notes:
* JavaScript character classes are by code point; `\s`, `\d`, `\w` and the
  explicit classes in the classifiers are given in code-point form below.
* The two floating point ratio comparisons (`numRatio > 0.8` and
  `letterRatio < 0.4`) are modelled by exact rational comparison via cross
  multiplication.  This is faithful: at the point where each runs, the string
  length is at most 40 (resp. 50), so the true rational quotient is at least
  1/200 (resp. 1/250) away from the threshold whenever it differs from it,
  far beyond double rounding error, and at exact equality both the double
  comparison and the rational one are false.  The `0/0 = NaN` case (empty
  string) compares false in JavaScript exactly as `5*0 > 4*0` is false here.
* `String.prototype.toUpperCase` is modelled on ASCII letters
  (`Char.toUpper`, identity elsewhere); the casing behaviour exercised by the
  properties under verification is ASCII-only.
-/

namespace CourierScan

/-- JavaScript `\s` (also the set trimmed by `String.prototype.trim`),
by code point: TAB..CR, space, NBSP, OGHAM, U+2000..U+200A, LS, PS, NNBSP,
MMSP, IDEOGRAPHIC SPACE, BOM. -/
def isJsWs (c : Char) : Bool :=
  decide (c.toNat = 32 ∨ (9 ≤ c.toNat ∧ c.toNat ≤ 13) ∨ c.toNat = 160 ∨
    c.toNat = 5760 ∨ (8192 ≤ c.toNat ∧ c.toNat ≤ 8202) ∨ c.toNat = 8232 ∨
    c.toNat = 8233 ∨ c.toNat = 8239 ∨ c.toNat = 8287 ∨ c.toNat = 12288 ∨
    c.toNat = 65279)

/-- Letters `[A-Za-z]` (also `[A-Z]` under the `i` flag): code points 65..90,
97..122. -/
def isAsciiLetter (c : Char) : Bool :=
  decide ((65 ≤ c.toNat ∧ c.toNat ≤ 90) ∨ (97 ≤ c.toNat ∧ c.toNat ≤ 122))

/-- JavaScript `\d`: code points 48..57. -/
def isDigitC (c : Char) : Bool :=
  decide (48 ≤ c.toNat ∧ c.toNat ≤ 57)

/-- JavaScript `\w` (word character, used by the `\b` assertion):
`[A-Za-z0-9_]`, `_` being code point 95. -/
def isWordChar (c : Char) : Bool :=
  isAsciiLetter c || isDigitC c || decide (c.toNat = 95)

/-- JavaScript line terminators, the characters `.` does not match:
LF, CR, LS, PS. -/
def isLineTerm (c : Char) : Bool :=
  decide (c.toNat = 10 ∨ c.toNat = 13 ∨ c.toNat = 8232 ∨ c.toNat = 8233)

/-- The class of noise rule 1, `[£$€¥#@%&*+=<>]`. -/
def special1 (c : Char) : Bool :=
  c == '£' || c == '$' || c == '€' || c == '¥' || c == '#' || c == '@' ||
  c == '%' || c == '&' || c == '*' || c == '+' || c == '=' || c == '<' ||
  c == '>'

/-- The class of noise rule 2, `[£$€¥#@%&*+=<>\[\]{}|\\\/~`^]`; the left and
right curly brace and the backquote are given by code point (123, 125, 96). -/
def special2 (c : Char) : Bool :=
  special1 c || c == '[' || c == ']' || c == '|' || c == '\\' || c == '/' ||
  c == '~' || c == '^' || decide (c.toNat = 123) || decide (c.toNat = 125) ||
  decide (c.toNat = 96)

/-- The class of noise rule 3, `[£$€¥#@%&*]`. -/
def special3 (c : Char) : Bool :=
  c == '£' || c == '$' || c == '€' || c == '¥' || c == '#' || c == '@' ||
  c == '%' || c == '&' || c == '*'

/-- The class of the tracking-number rule, `[A-Z0-9\-_]` under `i`. -/
def trackChar (c : Char) : Bool :=
  isAsciiLetter c || isDigitC c || c == '-' || decide (c.toNat = 95)

/-- Model of `String.prototype.trim` on character lists. -/
def trimCS (cs : List Char) : List Char :=
  ((cs.dropWhile isJsWs).reverse.dropWhile isJsWs).reverse

/-- Model of `text.split('\n')` on character lists. -/
def splitOnNl : List Char → List (List Char)
  | [] => [[]]
  | c :: cs =>
    match splitOnNl cs with
    | [] => [[c]]
    | l :: ls => if c = '\n' then [] :: l :: ls else (c :: l) :: ls

/-- Inverse of `splitOnNl`: rejoin raw lines with `'\n'` (used only to
reason about the split). -/
def unsplitNl : List (List Char) → List Char
  | [] => []
  | [r] => r
  | r :: r2 :: ls => r ++ '\n' :: unsplitNl (r2 :: ls)

/-- The line list of `extractAddress`:
`text.split('\n').map(line => line.trim()).filter(line => line.length > 0)`. -/
def linesOf (td : List Char) : List (List Char) :=
  ((splitOnNl td).map trimCS).filter (fun l => !l.isEmpty)

/-- Model of `Array.prototype.join(', ')` on character lists. -/
def joinCS : List (List Char) → List Char
  | [] => []
  | [x] => x
  | x :: y :: xs => x ++ ',' :: ' ' :: joinCS (y :: xs)

/-- Model of `String.prototype.split(', ')` on character lists (left-to-right scan
for the two-character separator). -/
def splitCS : List Char → List (List Char)
  | [] => [[]]
  | [c] => [[c]]
  | c1 :: c2 :: cs =>
    if c1 = ',' ∧ c2 = ' ' then [] :: splitCS cs
    else
      match splitCS (c2 :: cs) with
      | [] => [[c1]]
      | l :: ls => (c1 :: l) :: ls

/-- The trailing comma-separated component of a string. -/
def lastComma (cs : List Char) : List Char :=
  (splitCS cs).getLastD []

/-! ## The postcode regular expression

`/\b[A-Z]{1,2}\d[A-Z\d]?\s*\d[A-Z]{2}\b/i`, embedded as a backtracking
matcher in the greedy order of the JavaScript engine, layered by pattern
suffix.  Each layer returns the consumed characters and the remainder. -/

/-- The trailing `\b`: the character before it is always a letter, so the
assertion holds exactly when the remainder is empty or starts with a
non-word character. -/
def tailBoundary (rest : List Char) : Bool :=
  match rest with
  | [] => true
  | c :: _ => !isWordChar c

/-- Layer `\s*\d[A-Z]{2}\b`.  The greedy `\s*` needs no backtracking: no
whitespace character is a digit, so only the maximal munch can succeed. -/
def mcTail (cs : List Char) : Option (List Char × List Char) :=
  match cs.dropWhile isJsWs with
  | d :: a :: b :: rest =>
    if isDigitC d && isAsciiLetter a && isAsciiLetter b && tailBoundary rest then
      some (cs.takeWhile isJsWs ++ [d, a, b], rest)
    else none
  | _ => none

/-- Layer `[A-Z\d]?\s*\d[A-Z]{2}\b`; greedy, so the optional character is tried
first. -/
def mcOpt (cs : List Char) : Option (List Char × List Char) :=
  match cs with
  | [] => none
  | c :: rest =>
    if isAsciiLetter c || isDigitC c then
      match mcTail rest with
      | some (m, r) => some (c :: m, r)
      | none => mcTail cs
    else mcTail cs

/-- Layer `\d[A-Z\d]?\s*\d[A-Z]{2}\b`. -/
def mcDigit (cs : List Char) : Option (List Char × List Char) :=
  match cs with
  | [] => none
  | d :: rest =>
    if isDigitC d then
      match mcOpt rest with
      | some (m, r) => some (d :: m, r)
      | none => none
    else none

/-- Layer `[A-Z]{1,2}\d[A-Z\d]?\s*\d[A-Z]{2}\b` at the current position; the
greedy `{1,2}` tries two letters before one. -/
def matchCore (cs : List Char) : Option (List Char × List Char) :=
  match cs with
  | [] => none
  | c1 :: rest =>
    if isAsciiLetter c1 then
      match rest with
      | [] => none
      | c2 :: rest2 =>
        if isAsciiLetter c2 then
          match mcDigit rest2 with
          | some (m, r) => some (c1 :: c2 :: m, r)
          | none =>
            match mcDigit rest with
            | some (m, r) => some (c1 :: m, r)
            | none => none
        else
          match mcDigit rest with
          | some (m, r) => some (c1 :: m, r)
          | none => none
    else none

/-- First match of the full pattern, as `String.prototype.match` (no `g`
flag): every start position is tried left to right.  `prev` records whether
the preceding character is a word character; a match begins with a letter,
so the leading `\b` holds exactly when `prev` is false. -/
def pcScan (prev : Bool) : List Char → Option (List Char)
  | [] => none
  | c :: cs =>
    match if prev then none else matchCore (c :: cs) with
    | some (m, _) => some m
    | none => pcScan (isWordChar c) cs

/-- Model of `POSTCODE_REGEX.test(line)`, the boolean used by the locator. -/
def pcTestB (prev : Bool) : List Char → Bool
  | [] => false
  | c :: cs =>
    (!prev && (matchCore (c :: cs)).isSome) || pcTestB (isWordChar c) cs

/-! ### Declarative form of the pattern (no boundaries)

`rawFull m` states that `m` as a whole matches
`[A-Z]{1,2}\d[A-Z\d]?\s*\d[A-Z]{2}` (case-insensitively), the postcode
format as written in the specification glossary. -/

/-- Pattern `\s*\d[A-Z]{2}` consuming the whole list. -/
def rawTail (cs : List Char) : Bool :=
  match cs.dropWhile isJsWs with
  | [d, a, b] => isDigitC d && isAsciiLetter a && isAsciiLetter b
  | _ => false

/-- Pattern `[A-Z\d]?\s*\d[A-Z]{2}` consuming the whole list. -/
def rawOpt (cs : List Char) : Bool :=
  (match cs with
   | c :: rest => (isAsciiLetter c || isDigitC c) && rawTail rest
   | [] => false) || rawTail cs

/-- Pattern `\d[A-Z\d]?\s*\d[A-Z]{2}` consuming the whole list. -/
def rawAfterD (cs : List Char) : Bool :=
  match cs with
  | d :: rest => isDigitC d && rawOpt rest
  | [] => false

/-- Pattern `[A-Z]{1,2}\d[A-Z\d]?\s*\d[A-Z]{2}` consuming the whole list. -/
def rawFull (cs : List Char) : Bool :=
  match cs with
  | [] => false
  | c1 :: rest =>
    isAsciiLetter c1 &&
      (rawAfterD rest ||
        match rest with
        | c2 :: rest2 => isAsciiLetter c2 && rawAfterD rest2
        | [] => false)

/-- All positional occurrences `(i, length)` of the raw postcode pattern
as a substring of `cs`. -/
def rawOccs (cs : List Char) : List (Nat × Nat) :=
  ((List.range (cs.length + 1)).flatMap
      (fun i => (List.range (cs.length + 1 - i)).map (fun l => (i, l)))).filter
    (fun p => rawFull ((cs.drop p.1).take p.2))

/-- Occurrences that the word-boundary form of the regex can see: delimited
by non-word characters (or the ends of the text) and free of `'\n'` (a
match found by the code never spans the line split). -/
def bOccs (cs : List Char) : List (Nat × Nat) :=
  (rawOccs cs).filter
    (fun p =>
      (decide (p.1 = 0) || !isWordChar (cs.getD (p.1 - 1) ' ')) &&
      !isWordChar (cs.getD (p.1 + p.2) ' ') &&
      !((cs.drop p.1).take p.2).contains '\n')

/-! ## The noise classifier (`isPackageMetadata`) -/

/-- Tail of `/[A-Za-z].*\d.*[£$€¥#@%&*]/` after the digit:
`.*[£$€¥#@%&*]`, where `.` matches anything but a line terminator. -/
def noTermS : List Char → Bool
  | [] => false
  | c :: r => special3 c || (!isLineTerm c && noTermS r)

/-- Pattern `.*\d.*[£$€¥#@%&*]` from the current position. -/
def noTermDS : List Char → Bool
  | [] => false
  | c :: r => (isDigitC c && noTermS r) || (!isLineTerm c && noTermDS r)

/-- Model of `/[A-Za-z].*\d.*[£$€¥#@%&*]/.test`: a letter, later a digit, later one
of the rule-3 special characters, with no line terminator crossed by `.`. -/
def hasLDSpecial : List Char → Bool
  | [] => false
  | c :: r => (isAsciiLetter c && noTermDS r) || hasLDSpecial r

/-- Header keywords of noise rule 6. -/
def headerKws : List (List Char) :=
  [String.data "SHIP", String.data "DELIVERY", String.data "ADDRESS",
   String.data "TO", String.data "FROM", String.data "ORDER",
   String.data "TRACKING", String.data "PARCEL", String.data "REF"]

/-- Header test `/^(SHIP|DELIVERY|ADDRESS|TO|FROM|ORDER|TRACKING|PARCEL|REF)/i`:
some keyword is a case-insensitive prefix. -/
def startsHeaderKw (t : List Char) : Bool :=
  headerKws.any (fun kw => (t.take kw.length).map Char.toUpper == kw)

/-- Model of `String.prototype.toUpperCase`, on ASCII letters. -/
def jsToUpper (t : List Char) : List Char := t.map Char.toUpper

/-- Noise classifier `isPackageMetadata(line)`: the eight rules of `src/App.jsx`
(lines 47-78), in source order as a short-circuit chain. -/
def isPackageMetadata (line : List Char) : Bool :=
  let t := trimCS line
  -- very short lines with weird characters (OCR noise like "3£")
  if t.length < 4 && t.any special1 then true
  -- too many special characters (barcode/QR noise)
  else if 2 < (t.filter special2).length ||
      (0 < (t.filter special2).length && t.length < 8) then true
  -- no spaces, mixed letter/number/special (garbled token)
  else if 3 < t.length && !t.any isJsWs && hasLDSpecial t then true
  -- very long lines (tracking info or barcodes)
  else if 40 < t.length then true
  -- long alphanumeric strings without spaces (tracking numbers)
  else if 15 ≤ (t.filter (fun c => !isJsWs c)).length &&
      (t.filter (fun c => !isJsWs c)).all trackChar then true
  -- headers like "SHIP TO", "DELIVERY ADDRESS"
  else if t == jsToUpper t && startsHeaderKw t then true
  -- mostly numbers (tracking numbers): digits/length > 0.8 and length > 10
  else if 4 * t.length < 5 * (t.filter isDigitC).length && 10 < t.length then true
  -- not enough letters to be an address
  else if (t.filter isAsciiLetter).length < 2 && 5 < t.length then true
  else false

/-- Validity classifier `isValidAddressLine(line)` (lines 81-96): letters present,
length in [2, 50], and letter-plus-space ratio at least 0.4 unless the line
is at most 5 characters long. -/
def isValidAddressLine (line : List Char) : Bool :=
  let t := trimCS line
  if !t.any isAsciiLetter then false
  else if t.length < 2 || 50 < t.length then false
  else if 5 * (t.filter (fun c => isAsciiLetter c || isJsWs c)).length <
      2 * t.length && 5 < t.length then false
  else true

/-! ## The address assembler and `extractAddress` -/

/-- The first line index whose content matches the postcode pattern
(`postcodeIndex` loop, lines 29-35), `none` when no line matches. -/
def findPcIdx : List (List Char) → Option Nat
  | [] => none
  | l :: ls =>
    if pcTestB false l then some 0 else (findPcIdx ls).map (· + 1)

/-- The backward collection loop (lines 100-126).  `i` is the number of
lines still below the cursor (the loop variable plus one), `fuel` is
`linesToCheck`, `acc` the collected address lines.  Returns the collected
lines together with the number of lines inspected. -/
def collectAddr (ls : List (List Char)) :
    Nat → Nat → List (List Char) → List (List Char) × Nat
  | _, 0, acc => (acc, 0)
  | 0, _ + 1, acc => (acc, 0)
  | i + 1, fuel + 1, acc =>
    if 4 ≤ acc.length then (acc, 0)
    else
      let line := ls.getD i []
      let step :=
        -- skip package metadata and OCR noise
        if isPackageMetadata line then collectAddr ls i fuel acc
        -- only add lines that look like valid address lines
        else if !isValidAddressLine line then collectAddr ls i fuel acc
        -- (dead guard in the source: the loop condition already enforces it)
        else if 4 ≤ acc.length then (acc, 0)
        -- insert at the beginning (we are working backwards)
        else collectAddr ls i fuel (line :: acc)
      (step.1, step.2 + 1)

/-- The function `extractAddress` (lines 25-132) on character lists. -/
def extractL (td : List Char) : List Char :=
  let ls := linesOf td
  match findPcIdx ls with
  | none => td          -- no postcode found, return original text
  | some k =>
    let lineK := ls.getD k []
    -- extract postcode from the line
    let pc :=
      match pcScan false lineK with
      | some m => m
      | none => lineK
    joinCS ((collectAddr ls k (min 8 k) []).1 ++ [pc])

/-- The function `extractAddress` on strings. -/
def extractAddress (text : String) : String :=
  String.mk (extractL text.data)

/-! ## Character-class facts -/

theorem not_word_of_ws {c : Char} (h : isJsWs c = true) : isWordChar c = false := by
  simp only [isJsWs, decide_eq_true_eq] at h
  simp only [isWordChar, isAsciiLetter, isDigitC, Bool.or_eq_false_iff,
    decide_eq_false_iff_not]
  omega

theorem not_ws_of_digit {c : Char} (h : isDigitC c = true) : isJsWs c = false := by
  simp only [isDigitC, decide_eq_true_eq] at h
  simp only [isJsWs, decide_eq_false_iff_not]
  omega

theorem not_ws_of_letter {c : Char} (h : isAsciiLetter c = true) : isJsWs c = false := by
  simp only [isAsciiLetter, decide_eq_true_eq] at h
  simp only [isJsWs, decide_eq_false_iff_not]
  omega

theorem word_of_letter {c : Char} (h : isAsciiLetter c = true) : isWordChar c = true := by
  simp [isWordChar, h]

theorem word_of_digit {c : Char} (h : isDigitC c = true) : isWordChar c = true := by
  simp [isWordChar, h]

theorem comma_class : isWordChar ',' = false ∧ isJsWs ',' = false ∧
    isAsciiLetter ',' = false ∧ isDigitC ',' = false := by decide

/-! ## List helpers -/

theorem dropWhile_append_left {p : Char → Bool} (tw x : List Char)
    (h : ∀ c ∈ tw, p c = true) :
    (tw ++ x).dropWhile p = x.dropWhile p := by
  induction tw with
  | nil => rfl
  | cons c tw ih =>
    simp only [List.cons_append, List.dropWhile_cons, h c (by simp), ih
      (fun d hd => h d (by simp [hd])), if_true]

theorem takeWhile_append_left {p : Char → Bool} (tw x : List Char)
    (h : ∀ c ∈ tw, p c = true) (hx : ∀ c, x.head? = some c → p c = false) :
    (tw ++ x).takeWhile p = tw := by
  induction tw with
  | nil =>
    cases x with
    | nil => rfl
    | cons c x => simp [List.takeWhile_cons, hx c rfl]
  | cons c tw ih =>
    have hc := h c (by simp)
    simp only [List.cons_append, List.takeWhile_cons, hc, if_true]
    rw [ih (fun d hd => h d (by simp [hd]))]

theorem getLast?_append_left {α : Type} (a b : List α) (h : b ≠ []) :
    (a ++ b).getLast? = b.getLast? := by
  induction a with
  | nil => rfl
  | cons c a ih =>
    rw [List.cons_append, List.getLast?_cons, ih]
    cases b with
    | nil => exact absurd rfl h
    | cons d b => simp [List.getLast?_cons]

/-! ## Soundness and completeness of the matcher layers

Soundness: a successful match returns a decomposition whose matched part
satisfies the declarative pattern and whose remainder passes the trailing
boundary.  Completeness: any such decomposition makes the matcher succeed. -/

theorem mcTail_sound {cs m r : List Char} (h : mcTail cs = some (m, r)) :
    cs = m ++ r ∧ rawTail m = true ∧ tailBoundary r = true := by
  unfold mcTail at h
  split at h
  case h_2 => exact absurd h (by simp)
  case h_1 d a b rest heq =>
    split at h
    case isFalse => exact absurd h (by simp)
    case isTrue hcond =>
      obtain ⟨hm, hr⟩ : cs.takeWhile isJsWs ++ [d, a, b] = m ∧ rest = r := by
        simpa using h
      subst hm hr
      simp only [Bool.and_eq_true] at hcond
      refine ⟨?_, ?_, hcond.2⟩
      · conv_lhs => rw [← List.takeWhile_append_dropWhile (p := isJsWs) (l := cs)]
        rw [heq]
        simp
      · have hd : isJsWs d = false := not_ws_of_digit hcond.1.1.1
        unfold rawTail
        rw [dropWhile_append_left _ _ (fun c hc => List.mem_takeWhile_imp hc)]
        simp [List.dropWhile_cons, hd, hcond.1.1.1, hcond.1.1.2, hcond.1.2]

theorem mcTail_complete {m r : List Char} (hm : rawTail m = true)
    (hr : tailBoundary r = true) : mcTail (m ++ r) = some (m, r) := by
  unfold rawTail at hm
  split at hm
  case h_2 => exact absurd hm (by simp)
  case h_1 d a b heq =>
    simp only [Bool.and_eq_true] at hm
    have hdrop : (m ++ r).dropWhile isJsWs = d :: a :: b :: r := by
      conv_lhs => rw [← List.takeWhile_append_dropWhile (p := isJsWs) (l := m), heq]
      rw [List.append_assoc]
      rw [dropWhile_append_left _ _ (fun c hc => List.mem_takeWhile_imp hc)]
      simp [List.dropWhile_cons, not_ws_of_digit hm.1.1]
    have htake : (m ++ r).takeWhile isJsWs = m.takeWhile isJsWs := by
      conv_lhs => rw [← List.takeWhile_append_dropWhile (p := isJsWs) (l := m), heq]
      rw [List.append_assoc]
      rw [takeWhile_append_left _ _ (fun c hc => List.mem_takeWhile_imp hc)]
      intro c hc
      obtain rfl : d = c := by simpa using hc
      exact not_ws_of_digit hm.1.1
    unfold mcTail
    rw [hdrop]
    simp only [hm.1.1, hm.1.2, hm.2, hr, Bool.and_self, if_true]
    rw [htake]
    have : m.takeWhile isJsWs ++ [d, a, b] = m := by
      conv_rhs => rw [← List.takeWhile_append_dropWhile (p := isJsWs) (l := m), heq]
    rw [this]

theorem mcOpt_sound {cs m r : List Char} (h : mcOpt cs = some (m, r)) :
    cs = m ++ r ∧ rawOpt m = true ∧ tailBoundary r = true := by
  unfold mcOpt at h
  split at h
  case h_1 => exact absurd h (by simp)
  case h_2 c rest =>
    split at h
    case isTrue halnum =>
      cases htail : mcTail rest with
      | some pr =>
        obtain ⟨m1, r1⟩ := pr
        rw [htail] at h
        obtain ⟨hm, hr⟩ : c :: m1 = m ∧ r1 = r := by simpa using h
        subst hm hr
        obtain ⟨he, hraw, hb⟩ := mcTail_sound htail
        subst he
        refine ⟨rfl, ?_, hb⟩
        unfold rawOpt
        simp [halnum, hraw]
      | none =>
        rw [htail] at h
        obtain ⟨he, hraw, hb⟩ := mcTail_sound h
        refine ⟨he, ?_, hb⟩
        unfold rawOpt
        simp [hraw]
    case isFalse =>
      obtain ⟨he, hraw, hb⟩ := mcTail_sound h
      refine ⟨he, ?_, hb⟩
      unfold rawOpt
      simp [hraw]

theorem mcOpt_complete {m r : List Char} (hm : rawOpt m = true)
    (hr : tailBoundary r = true) : (mcOpt (m ++ r)).isSome = true := by
  unfold rawOpt at hm
  simp only [Bool.or_eq_true] at hm
  rcases hm with hm | hm
  · -- the optional character is consumed
    cases m with
    | nil => simp at hm
    | cons c m1 =>
      simp only [Bool.and_eq_true] at hm
      unfold mcOpt
      simp only [List.cons_append, hm.1, if_true]
      rw [mcTail_complete hm.2 hr]
      simp
  · -- the optional character is skipped
    cases m with
    | nil => simp [rawTail] at hm
    | cons c m1 =>
      have hcore := mcTail_complete hm hr
      rw [List.cons_append] at hcore
      unfold mcOpt
      simp only [List.cons_append]
      split
      case isTrue =>
        cases htail : mcTail (m1 ++ r) with
        | some pr => simp
        | none => simp [hcore]
      case isFalse => simp [hcore]

theorem mcDigit_sound {cs m r : List Char} (h : mcDigit cs = some (m, r)) :
    cs = m ++ r ∧ rawAfterD m = true ∧ tailBoundary r = true := by
  unfold mcDigit at h
  split at h
  case h_1 => exact absurd h (by simp)
  case h_2 d rest =>
    split at h
    case isFalse => exact absurd h (by simp)
    case isTrue hd =>
      cases hopt : mcOpt rest with
      | none => rw [hopt] at h; exact absurd h (by simp)
      | some pr =>
        obtain ⟨m1, r1⟩ := pr
        rw [hopt] at h
        obtain ⟨hm, hr⟩ : d :: m1 = m ∧ r1 = r := by simpa using h
        subst hm hr
        obtain ⟨he, hraw, hb⟩ := mcOpt_sound hopt
        subst he
        exact ⟨rfl, by simp [rawAfterD, hd, hraw], hb⟩

theorem mcDigit_complete {m r : List Char} (hm : rawAfterD m = true)
    (hr : tailBoundary r = true) : (mcDigit (m ++ r)).isSome = true := by
  unfold rawAfterD at hm
  cases m with
  | nil => simp at hm
  | cons d m1 =>
    simp only [Bool.and_eq_true] at hm
    unfold mcDigit
    simp only [List.cons_append, hm.1, if_true]
    have := mcOpt_complete hm.2 hr
    cases hopt : mcOpt (m1 ++ r) with
    | none => rw [hopt] at this; simp at this
    | some pr => simp

theorem matchCore_sound {cs m r : List Char} (h : matchCore cs = some (m, r)) :
    cs = m ++ r ∧ rawFull m = true ∧ tailBoundary r = true := by
  unfold matchCore at h
  split at h
  case h_1 => exact absurd h (by simp)
  case h_2 c1 rest =>
    split at h
    case isFalse => exact absurd h (by simp)
    case isTrue h1 =>
      split at h
      case h_1 => exact absurd h (by simp)
      case h_2 c2 rest2 =>
        split at h
        case isTrue h2 =>
          cases hd2 : mcDigit rest2 with
          | some pr =>
            obtain ⟨m1, r1⟩ := pr
            rw [hd2] at h
            obtain ⟨hm, hr⟩ : c1 :: c2 :: m1 = m ∧ r1 = r := by simpa using h
            subst hm hr
            obtain ⟨he, hraw, hb⟩ := mcDigit_sound hd2
            subst he
            refine ⟨rfl, ?_, hb⟩
            unfold rawFull
            simp [h1, h2, hraw]
          | none =>
            rw [hd2] at h
            cases hd1 : mcDigit (c2 :: rest2) with
            | none => rw [hd1] at h; exact absurd h (by simp)
            | some pr =>
              obtain ⟨m1, r1⟩ := pr
              rw [hd1] at h
              obtain ⟨hm, hr⟩ : c1 :: m1 = m ∧ r1 = r := by simpa using h
              subst hm hr
              obtain ⟨he, hraw, hb⟩ := mcDigit_sound hd1
              refine ⟨by simp [he], ?_, hb⟩
              unfold rawFull
              simp [h1, hraw]
        case isFalse =>
          cases hd1 : mcDigit (c2 :: rest2) with
          | none => rw [hd1] at h; exact absurd h (by simp)
          | some pr =>
            obtain ⟨m1, r1⟩ := pr
            rw [hd1] at h
            obtain ⟨hm, hr⟩ : c1 :: m1 = m ∧ r1 = r := by simpa using h
            subst hm hr
            obtain ⟨he, hraw, hb⟩ := mcDigit_sound hd1
            refine ⟨by simp [he], ?_, hb⟩
            unfold rawFull
            simp [h1, hraw]

theorem matchCore_complete {m r : List Char} (hm : rawFull m = true)
    (hr : tailBoundary r = true) : (matchCore (m ++ r)).isSome = true := by
  unfold rawFull at hm
  cases m with
  | nil => simp at hm
  | cons c1 m1 =>
    simp only [Bool.and_eq_true, Bool.or_eq_true] at hm
    obtain ⟨h1, hrest⟩ := hm
    unfold matchCore
    simp only [List.cons_append, h1, if_true]
    rcases hrest with hone | htwo
    · -- one letter, then the digit part
      have hd1 := mcDigit_complete hone hr
      cases m1 with
      | nil =>
        unfold rawAfterD at hone
        simp at hone
      | cons c2 m2 =>
        simp only [List.cons_append] at hd1 ⊢
        split
        case isTrue =>
          cases hd2 : mcDigit (m2 ++ r) with
          | some pr => simp
          | none =>
            cases hd1' : mcDigit (c2 :: (m2 ++ r)) with
            | none => rw [hd1'] at hd1; simp at hd1
            | some pr => simp
        case isFalse =>
          cases hd1' : mcDigit (c2 :: (m2 ++ r)) with
          | none => rw [hd1'] at hd1; simp at hd1
          | some pr => simp
    · -- two letters
      cases m1 with
      | nil => simp at htwo
      | cons c2 m2 =>
        simp only [Bool.and_eq_true] at htwo
        have hd2 := mcDigit_complete htwo.2 hr
        simp only [List.cons_append, htwo.1, if_true]
        cases hd2' : mcDigit (m2 ++ r) with
        | none => rw [hd2'] at hd2; simp at hd2
        | some pr => simp

theorem tailBoundary_of_head {post : List Char}
    (h : ∀ c, post.head? = some c → isWordChar c = false) :
    tailBoundary post = true := by
  cases post with
  | nil => rfl
  | cons c post => simp [tailBoundary, h c rfl]

theorem head_of_tailBoundary {post : List Char} (h : tailBoundary post = true) :
    ∀ c, post.head? = some c → isWordChar c = false := by
  intro c hc
  cases post with
  | nil => simp at hc
  | cons d post =>
    obtain rfl : d = c := by simpa using hc
    simpa [tailBoundary] using h

theorem getLast?_cons_prop {P : Char → Prop} {c : Char} {l : List Char}
    (h : ∀ d, l.getLast? = some d → P d) (h0 : l = [] → P c) :
    ∀ d, (c :: l).getLast? = some d → P d := by
  intro d hd
  cases l with
  | nil =>
    obtain rfl : c = d := by simpa using hd
    exact h0 rfl
  | cons e l =>
    rw [List.getLast?_cons_cons] at hd
    exact h d hd

/-- Agreement of the engine entry points: the boolean test succeeds
exactly when the first-match scanner returns a value. -/
theorem pcTestB_iff_scan (cs : List Char) :
    ∀ p, pcTestB p cs = (pcScan p cs).isSome := by
  induction cs with
  | nil => intro p; rfl
  | cons c cs ih =>
    intro p
    unfold pcTestB pcScan
    cases p with
    | true => simpa using ih (isWordChar c)
    | false =>
      cases hmc : matchCore (c :: cs) with
      | none => simpa [hmc] using ih (isWordChar c)
      | some pr => simp [hmc]

/-- Soundness of the scanner: a returned match is a substring of the input,
matches the raw pattern, and is delimited by word boundaries. -/
theorem pcScan_sound {cs m : List Char} :
    ∀ {p : Bool}, pcScan p cs = some m →
    ∃ pre post, cs = pre ++ m ++ post ∧
      (∀ c, pre.getLast? = some c → isWordChar c = false) ∧
      (pre = [] → p = false) ∧
      (∀ c, post.head? = some c → isWordChar c = false) ∧
      rawFull m = true := by
  induction cs with
  | nil => intro p h; simp [pcScan] at h
  | cons c cs ih =>
    intro p h
    unfold pcScan at h
    cases p with
    | true =>
      rw [if_pos rfl] at h
      obtain ⟨pre', post, he, hlast, hnil, hhead, hraw⟩ := ih h
      refine ⟨c :: pre', post, by simp [he], ?_, by simp, hhead, hraw⟩
      exact getLast?_cons_prop hlast (fun hn => by simpa using hnil hn)
    | false =>
      rw [if_neg Bool.false_ne_true] at h
      cases hmc : matchCore (c :: cs) with
      | some pr =>
        obtain ⟨m0, r⟩ := pr
        rw [hmc] at h
        obtain rfl : m0 = m := by simpa using h
        obtain ⟨he, hraw, hb⟩ := matchCore_sound hmc
        exact ⟨[], r, by simpa using he, by simp, fun _ => rfl,
          head_of_tailBoundary hb, hraw⟩
      | none =>
        rw [hmc] at h
        simp only at h
        obtain ⟨pre', post, he, hlast, hnil, hhead, hraw⟩ := ih h
        refine ⟨c :: pre', post, by simp [he], ?_, by simp, hhead, hraw⟩
        exact getLast?_cons_prop hlast (fun hn => by simpa using hnil hn)

/-- Completeness of the scanner: a word-boundary-delimited occurrence of
the raw pattern makes the scan succeed. -/
theorem pcScan_complete (pre : List Char) :
    ∀ (p : Bool) (v post : List Char), rawFull v = true →
    (∀ c, post.head? = some c → isWordChar c = false) →
    (∀ c, pre.getLast? = some c → isWordChar c = false) →
    (pre = [] → p = false) →
    (pcScan p (pre ++ v ++ post)).isSome = true := by
  induction pre with
  | nil =>
    intro p v post hraw hpost _ hp
    obtain rfl : p = false := hp rfl
    have hcore := matchCore_complete hraw (tailBoundary_of_head hpost)
    cases v with
    | nil => simp [rawFull] at hraw
    | cons c v =>
      rw [List.nil_append]
      unfold pcScan
      simp only [List.cons_append] at hcore ⊢
      cases hmc : matchCore (c :: (v ++ post)) with
      | none => rw [hmc] at hcore; simp at hcore
      | some pr => simp [hmc]
  | cons c pre ih =>
    intro p v post hraw hpost hlast _
    have h1 : ∀ d, pre.getLast? = some d → isWordChar d = false := by
      intro d hd
      cases hpre : pre with
      | nil => simp [hpre] at hd
      | cons e l =>
        refine hlast d ?_
        rw [hpre] at hd ⊢
        rwa [List.getLast?_cons_cons]
    have h2 : pre = [] → isWordChar c = false := fun hnil => hlast c (by simp [hnil])
    have hih := ih (isWordChar c) v post hraw hpost h1 h2
    rw [List.cons_append]
    unfold pcScan
    simp only [List.append_assoc] at hih ⊢
    cases hsc : (if p = true then none else matchCore (c :: (pre ++ (v ++ post)))) with
    | some pr => simp [hsc]
    | none => simpa [hsc] using hih

/-! ## Structure of raw-pattern matches -/

theorem rawTail_decomp {m : List Char} (h : rawTail m = true) :
    ∃ sp d a b, m = sp ++ [d, a, b] ∧ (∀ c ∈ sp, isJsWs c = true) ∧
      isDigitC d = true ∧ isAsciiLetter a = true ∧ isAsciiLetter b = true := by
  unfold rawTail at h
  split at h
  case h_2 => exact absurd h (by simp)
  case h_1 d a b heq =>
    simp only [Bool.and_eq_true] at h
    refine ⟨m.takeWhile isJsWs, d, a, b, ?_,
      fun c hc => List.mem_takeWhile_imp hc, h.1.1, h.1.2, h.2⟩
    conv_lhs => rw [← List.takeWhile_append_dropWhile (p := isJsWs) (l := m), heq]

theorem rawFull_decomp {m : List Char} (h : rawFull m = true) :
    ∃ al sp d a b, m = al ++ sp ++ [d, a, b] ∧
      (∀ c ∈ al, isWordChar c = true) ∧ (∀ c ∈ sp, isJsWs c = true) ∧
      2 ≤ al.length ∧ al.length ≤ 4 ∧
      isDigitC d = true ∧ isAsciiLetter a = true ∧ isAsciiLetter b = true := by
  have hopt : ∀ m1 : List Char, rawOpt m1 = true →
      ∃ op sp d a b, m1 = op ++ sp ++ [d, a, b] ∧
        (∀ c ∈ op, isWordChar c = true) ∧ (∀ c ∈ sp, isJsWs c = true) ∧
        op.length ≤ 1 ∧
        isDigitC d = true ∧ isAsciiLetter a = true ∧ isAsciiLetter b = true := by
    intro m1 h1
    unfold rawOpt at h1
    simp only [Bool.or_eq_true] at h1
    rcases h1 with h1 | h1
    · cases m1 with
      | nil => simp at h1
      | cons c m2 =>
        simp only [Bool.and_eq_true] at h1
        obtain ⟨sp, d, a, b, he, hsp, hd, ha, hb⟩ := rawTail_decomp h1.2
        refine ⟨[c], sp, d, a, b, by simp [he], ?_, hsp, by simp, hd, ha, hb⟩
        intro x hx
        obtain rfl : x = c := by simpa using hx
        rcases Bool.or_eq_true _ _ |>.mp h1.1 with hl | hdg
        · exact word_of_letter hl
        · exact word_of_digit hdg
    · obtain ⟨sp, d, a, b, he, hsp, hd, ha, hb⟩ := rawTail_decomp h1
      exact ⟨[], sp, d, a, b, by simp [he], by simp, hsp, by simp, hd, ha, hb⟩
  have hafter : ∀ m1 : List Char, rawAfterD m1 = true →
      ∃ al sp d a b, m1 = al ++ sp ++ [d, a, b] ∧
        (∀ c ∈ al, isWordChar c = true) ∧ (∀ c ∈ sp, isJsWs c = true) ∧
        1 ≤ al.length ∧ al.length ≤ 2 ∧
        isDigitC d = true ∧ isAsciiLetter a = true ∧ isAsciiLetter b = true := by
    intro m1 h1
    unfold rawAfterD at h1
    cases m1 with
    | nil => simp at h1
    | cons dg m2 =>
      simp only [Bool.and_eq_true] at h1
      obtain ⟨op, sp, d, a, b, he, hop, hsp, hlen, hd, ha, hb⟩ := hopt m2 h1.2
      refine ⟨dg :: op, sp, d, a, b, by simp [he], ?_, hsp, by simp,
        by simp only [List.length_cons]; omega, hd, ha, hb⟩
      intro x hx
      rcases List.mem_cons.mp hx with rfl | hx
      · exact word_of_digit h1.1
      · exact hop x hx
  unfold rawFull at h
  cases m with
  | nil => simp at h
  | cons c1 m1 =>
    simp only [Bool.and_eq_true, Bool.or_eq_true] at h
    obtain ⟨h1, hrest⟩ := h
    rcases hrest with hone | htwo
    · obtain ⟨al, sp, d, a, b, he, hal, hsp, hlo, hhi, hd, ha, hb⟩ := hafter m1 hone
      refine ⟨c1 :: al, sp, d, a, b, by simp [he], ?_, hsp, by simp only [List.length_cons]; omega,
        by simp only [List.length_cons]; omega, hd, ha, hb⟩
      intro x hx
      rcases List.mem_cons.mp hx with rfl | hx
      · exact word_of_letter h1
      · exact hal x hx
    · cases m1 with
      | nil => simp at htwo
      | cons c2 m2 =>
        simp only [Bool.and_eq_true] at htwo
        obtain ⟨al, sp, d, a, b, he, hal, hsp, hlo, hhi, hd, ha, hb⟩ :=
          hafter m2 htwo.2
        refine ⟨c1 :: c2 :: al, sp, d, a, b, by simp [he], ?_, hsp,
          by simp only [List.length_cons]; omega, by simp only [List.length_cons]; omega, hd, ha, hb⟩
        intro x hx
        rcases List.mem_cons.mp hx with rfl | hx
        · exact word_of_letter h1
        rcases List.mem_cons.mp hx with rfl | hx
        · exact word_of_letter htwo.1
        · exact hal x hx

theorem rawFull_length {m : List Char} (h : rawFull m = true) : 5 ≤ m.length := by
  obtain ⟨al, sp, d, a, b, he, -, -, hlo, -⟩ := rawFull_decomp h
  subst he
  simp
  omega

theorem rawFull_getLast {m : List Char} (h : rawFull m = true) :
    ∃ b, m.getLast? = some b ∧ isAsciiLetter b = true := by
  obtain ⟨al, sp, d, a, b, he, -, -, -, -, -, -, hb⟩ := rawFull_decomp h
  subst he
  refine ⟨b, ?_, hb⟩
  rw [getLast?_append_left _ _ (by simp)]
  rfl

theorem rawFull_not_comma {m : List Char} (h : rawFull m = true) : ',' ∉ m := by
  obtain ⟨al, sp, d, a, b, he, hal, hsp, -, -, hd, ha, hb⟩ := rawFull_decomp h
  subst he
  intro hmem
  simp only [List.append_assoc, List.mem_append, List.mem_cons] at hmem
  have hword : isWordChar ',' = false := comma_class.1
  have hws : isJsWs ',' = false := comma_class.2.1
  rcases hmem with hmem | hmem | hmem
  · rw [hal ',' hmem] at hword; cases hword
  · rw [hsp ',' hmem] at hws; cases hws
  · rcases hmem with rfl | h2
    · rw [word_of_digit hd] at hword; cases hword
    rcases h2 with rfl | h3
    · rw [word_of_letter ha] at hword; cases hword
    rcases h3 with rfl | h4
    · rw [word_of_letter hb] at hword; cases hword
    · simp at h4

theorem mem_of_getLast?_some {α : Type} {l : List α} {a : α}
    (h : l.getLast? = some a) : a ∈ l := by
  induction l with
  | nil => simp at h
  | cons c l ih =>
    cases l with
    | nil =>
      obtain rfl : c = a := by simpa using h
      exact List.mem_cons_self c []
    | cons d l' =>
      rw [List.getLast?_cons_cons] at h
      exact List.mem_cons_of_mem c (ih h)

/-- The whole of a raw-pattern match is matched when the matcher starts at
its first character with nothing behind it: the only decomposition with a
valid trailing boundary is the full one. -/
theorem matchCore_self {v : List Char} (h : rawFull v = true) :
    matchCore v = some (v, []) := by
  have hsome : (matchCore v).isSome = true := by
    have := matchCore_complete h (r := []) rfl
    simpa using this
  obtain ⟨pr, hpr⟩ := Option.isSome_iff_exists.mp hsome
  obtain ⟨m, r⟩ := pr
  obtain ⟨he, hm, hb⟩ := matchCore_sound hpr
  obtain ⟨al, sp, d, a, b, hed, hal, hsp, hlo, hhi, hd, ha, hbv⟩ := rawFull_decomp h
  have hmlen : 5 ≤ m.length := rawFull_length hm
  obtain ⟨bl, hbl, hbletter⟩ := rawFull_getLast hm
  suffices hr : r = [] by subst hr; rw [List.append_nil] at he; rw [← he] at hpr; exact hpr
  by_contra hrne
  obtain ⟨rc, r', rfl⟩ : ∃ rc r', r = rc :: r' := by
    cases r with
    | nil => exact absurd rfl hrne
    | cons rc r' => exact ⟨rc, r', rfl⟩
  have hrcword : isWordChar rc = false := by
    cases hbt : tailBoundary (rc :: r')
    · rw [hbt] at hb; cases hb
    · simpa [tailBoundary] using hbt
  rw [hed, List.append_assoc] at he
  rcases List.append_eq_append_iff.mp he.symm with ⟨t, hat, ht⟩ | ⟨t, hmt, ht⟩
  · -- m together with t fills the word block: m is too short to be a match
    have : m.length ≤ al.length := by
      rw [hat]; simp
    omega
  · -- m extends past the word block
    cases t with
    | nil =>
      have : m.length ≤ al.length := by rw [hmt]; simp
      omega
    | cons tc t' =>
      have hlast : m.getLast? = (tc :: t').getLast? := by
        rw [hmt]
        exact getLast?_append_left _ _ (by simp)
      rcases List.append_eq_append_iff.mp ht with ⟨u, htu, hu⟩ | ⟨u, hsu, hu⟩
      · -- the match would stop inside the final digit-letter-letter block,
        -- whose first unconsumed character would be a word character
        rcases u with _ | ⟨x, _ | ⟨y, _ | ⟨z, u⟩⟩⟩
        · obtain ⟨rfl, -⟩ : d = rc ∧ ([a, b] : List Char) = r' := by simpa using hu
          rw [word_of_digit hd] at hrcword
          cases hrcword
        · obtain ⟨-, rfl, -⟩ : d = x ∧ a = rc ∧ ([b] : List Char) = r' := by
            simpa using hu
          rw [word_of_letter ha] at hrcword
          cases hrcword
        · obtain ⟨-, -, rfl, -⟩ : d = x ∧ a = y ∧ b = rc ∧ ([] : List Char) = r' := by
            simpa using hu
          rw [word_of_letter hbv] at hrcword
          cases hrcword
        · have := congrArg List.length hu
          simp at this
      · -- the match would end inside the whitespace block, but it ends in a
        -- letter
        have hblt : (tc :: t').getLast? = some bl := by rw [← hlast]; exact hbl
        have hblmem : bl ∈ tc :: t' := mem_of_getLast?_some hblt
        have hblsp : bl ∈ sp := by
          rw [hsu]
          exact List.mem_append.mpr (Or.inl hblmem)
        have := hsp bl hblsp
        rw [not_ws_of_letter hbletter] at this
        cases this

/-! ## Lines of a text: split, trim, and their decompositions -/

theorem head?_append_left {α : Type} (a b : List α) (h : a ≠ []) :
    (a ++ b).head? = a.head? := by
  cases a with
  | nil => exact absurd rfl h
  | cons c a => rfl

theorem dropWhile_head?_not {p : Char → Bool} {l : List Char} {c : Char}
    (h : (l.dropWhile p).head? = some c) : p c = false := by
  induction l with
  | nil => simp at h
  | cons d l ih =>
    rw [List.dropWhile_cons] at h
    split at h
    · exact ih h
    · cases hp : p d
      · obtain rfl : d = c := by simpa using h
        exact hp
      · simp_all

theorem dropWhile_append_mid {p : Char → Bool} (a x : List Char)
    (hx : ∀ c, x.head? = some c → p c = false) :
    (a ++ x).dropWhile p = a.dropWhile p ++ x := by
  induction a with
  | nil =>
    cases x with
    | nil => rfl
    | cons c x => simp [List.dropWhile_cons, hx c rfl]
  | cons c a ih =>
    rw [List.cons_append, List.dropWhile_cons, List.dropWhile_cons]
    split
    · exact ih
    · rfl

theorem unsplitNl_cons (c : Char) (l : List Char) (ls : List (List Char)) :
    unsplitNl ((c :: l) :: ls) = c :: unsplitNl (l :: ls) := by
  cases ls with
  | nil => rfl
  | cons r ls => simp [unsplitNl]

theorem splitOnNl_ne_nil (cs : List Char) : splitOnNl cs ≠ [] := by
  cases cs with
  | nil => simp [splitOnNl]
  | cons c cs =>
    unfold splitOnNl
    split
    · simp
    · split <;> simp

theorem unsplit_splitOnNl (cs : List Char) : unsplitNl (splitOnNl cs) = cs := by
  induction cs with
  | nil => rfl
  | cons c cs ih =>
    unfold splitOnNl
    split
    case h_1 heq => exact absurd heq (splitOnNl_ne_nil cs)
    case h_2 l ls heq =>
      rw [heq] at ih
      split
      case isTrue hc => subst hc; simpa [unsplitNl] using ih
      case isFalse => rw [unsplitNl_cons, ih]

theorem nl_not_mem_splitOnNl {cs r : List Char} (hr : r ∈ splitOnNl cs) :
    '\n' ∉ r := by
  induction cs generalizing r with
  | nil =>
    obtain rfl : r = [] := by simpa [splitOnNl] using hr
    simp
  | cons c cs ih =>
    unfold splitOnNl at hr
    split at hr
    case h_1 heq => exact absurd heq (splitOnNl_ne_nil cs)
    case h_2 l ls heq =>
      split at hr
      case isTrue hc =>
        rcases List.mem_cons.mp hr with rfl | hr
        · simp
        · exact ih (heq ▸ hr)
      case isFalse hc =>
        rcases List.mem_cons.mp hr with rfl | hr
        · intro hmem
          rcases List.mem_cons.mp hmem with rfl | hmem
          · exact hc rfl
          · exact ih (heq ▸ List.mem_cons_self l ls) hmem
        · exact ih (heq ▸ List.mem_cons_of_mem l hr)

/-- Every raw line sits inside the joined text with a newline (or an end of
text) on each side. -/
theorem unsplit_mem_decomp {Ls : List (List Char)} {r : List Char}
    (hr : r ∈ Ls) :
    ∃ bfr aft, unsplitNl Ls = bfr ++ r ++ aft ∧
      (∀ c, bfr.getLast? = some c → c = '\n') ∧
      (∀ c, aft.head? = some c → c = '\n') := by
  induction Ls with
  | nil => simp at hr
  | cons r0 rest ih =>
    rcases List.mem_cons.mp hr with rfl | hr
    · cases rest with
      | nil => exact ⟨[], [], by simp [unsplitNl], by simp, by simp⟩
      | cons r1 ls =>
        refine ⟨[], '\n' :: unsplitNl (r1 :: ls), by simp [unsplitNl], by simp, ?_⟩
        intro c hc
        have : ('\n' : Char) = c := by simpa using hc
        exact this.symm
    · obtain ⟨bfr, aft, he, hb, ha⟩ := ih hr
      cases rest with
      | nil => simp at hr
      | cons r1 ls =>
        refine ⟨r0 ++ '\n' :: bfr, aft, by simp [unsplitNl, he], ?_, ha⟩
        intro c hc
        cases bfr with
        | nil =>
          have h1 : (r0 ++ ['\n']).getLast? = some c := by simpa using hc
          rw [getLast?_append_left _ _ (by simp)] at h1
          have : ('\n' : Char) = c := by simpa using h1
          exact this.symm
        | cons b0 bs =>
          refine hb c ?_
          rw [getLast?_append_left _ _ (by simp), List.getLast?_cons_cons] at hc
          exact hc

theorem rawFull_head {m : List Char} (h : rawFull m = true) :
    ∃ c, m.head? = some c ∧ isAsciiLetter c = true := by
  unfold rawFull at h
  cases m with
  | nil => simp at h
  | cons c1 m1 =>
    simp only [Bool.and_eq_true] at h
    exact ⟨c1, rfl, h.1⟩

theorem trim_eq_dropWhile_append (r : List Char) :
    ∃ w2, r.dropWhile isJsWs = trimCS r ++ w2 ∧ ∀ c ∈ w2, isJsWs c = true := by
  refine ⟨((r.dropWhile isJsWs).reverse.takeWhile isJsWs).reverse, ?_, ?_⟩
  · conv_lhs => rw [← List.reverse_reverse (r.dropWhile isJsWs)]
    conv_lhs =>
      rw [← List.takeWhile_append_dropWhile (p := isJsWs)
        (l := (r.dropWhile isJsWs).reverse)]
    rw [List.reverse_append]
    rfl
  · intro c hc
    exact List.mem_takeWhile_imp (by simpa using hc)

theorem trim_decomp (r : List Char) :
    ∃ w1 w2, r = w1 ++ trimCS r ++ w2 ∧ (∀ c ∈ w1, isJsWs c = true) ∧
      (∀ c ∈ w2, isJsWs c = true) := by
  obtain ⟨w2, he, hw2⟩ := trim_eq_dropWhile_append r
  refine ⟨r.takeWhile isJsWs, w2, ?_, fun c hc => List.mem_takeWhile_imp hc, hw2⟩
  conv_lhs => rw [← List.takeWhile_append_dropWhile (p := isJsWs) (l := r), he]
  simp

theorem trim_getLast_not_ws {r : List Char} {c : Char}
    (h : (trimCS r).getLast? = some c) : isJsWs c = false := by
  have : (trimCS r).getLast? = ((r.dropWhile isJsWs).reverse.dropWhile isJsWs).head? := by
    unfold trimCS
    rw [List.getLast?_reverse]
  rw [this] at h
  exact dropWhile_head?_not h

theorem trim_head_not_ws {r : List Char} {c : Char}
    (h : (trimCS r).head? = some c) : isJsWs c = false := by
  obtain ⟨w2, he, -⟩ := trim_eq_dropWhile_append r
  have hne : trimCS r ≠ [] := by
    intro hnil
    rw [hnil] at h
    simp at h
  have : (r.dropWhile isJsWs).head? = some c := by
    rw [he, head?_append_left _ _ hne]
    exact h
  exact dropWhile_head?_not this

/-- Trimming a line that contains a block with non-whitespace first and last
characters keeps the block intact and only shortens the two sides. -/
theorem trim_mid_decomp {r a m b : List Char}
    (he : r = a ++ m ++ b) (hm : m ≠ [])
    (hhead : ∀ c, m.head? = some c → isJsWs c = false)
    (hlast : ∀ c, m.getLast? = some c → isJsWs c = false) :
    ∃ a' b', trimCS r = a' ++ m ++ b' ∧
      (∀ c, a'.getLast? = some c → a.getLast? = some c) ∧
      (∀ c, b'.head? = some c → b.head? = some c) := by
  have hstep1 : r.dropWhile isJsWs = a.dropWhile isJsWs ++ (m ++ b) := by
    rw [he, List.append_assoc]
    refine dropWhile_append_mid a (m ++ b) ?_
    intro c hc
    rw [head?_append_left _ _ hm] at hc
    exact hhead c hc
  have hrevm : (m.reverse).head? = m.getLast? := List.head?_reverse m
  have hstep2 : (r.dropWhile isJsWs).reverse.dropWhile isJsWs =
      b.reverse.dropWhile isJsWs ++ (m.reverse ++ (a.dropWhile isJsWs).reverse) := by
    rw [hstep1]
    simp only [List.reverse_append, List.append_assoc]
    refine dropWhile_append_mid b.reverse (m.reverse ++ (a.dropWhile isJsWs).reverse) ?_
    intro c hc
    rw [head?_append_left _ _ (by simpa using hm), hrevm] at hc
    exact hlast c hc
  refine ⟨a.dropWhile isJsWs, (b.reverse.dropWhile isJsWs).reverse, ?_, ?_, ?_⟩
  · unfold trimCS
    rw [hstep2]
    simp
  · intro c hc
    have hne : a.dropWhile isJsWs ≠ [] := by
      intro hnil
      rw [hnil] at hc
      simp at hc
    conv_lhs => rw [← List.takeWhile_append_dropWhile (p := isJsWs) (l := a)]
    rw [getLast?_append_left _ _ hne]
    exact hc
  · intro c hc
    rw [List.head?_reverse] at hc
    have hne : b.reverse.dropWhile isJsWs ≠ [] := by
      intro hnil
      rw [hnil] at hc
      simp at hc
    conv_lhs => rw [← List.getLast?_reverse b]
    conv_lhs => rw [← List.takeWhile_append_dropWhile (p := isJsWs) (l := b.reverse)]
    rw [getLast?_append_left _ _ hne]
    exact hc

/-- A newline-free block of the joined text lies inside one raw line, with
the same adjacent characters (when any). -/
theorem unsplit_occ_line {Ls : List (List Char)} {pre m post : List Char}
    (he : unsplitNl Ls = pre ++ m ++ post) (hnl : '\n' ∉ m) (hm : m ≠ [])
    (hLs : Ls ≠ []) :
    ∃ r ∈ Ls, ∃ a b, r = a ++ m ++ b ∧
      (∀ c, a.getLast? = some c → pre.getLast? = some c) ∧
      (∀ c, b.head? = some c → post.head? = some c) := by
  induction Ls generalizing pre post with
  | nil => exact absurd rfl hLs
  | cons r0 rest ih =>
    cases rest with
    | nil =>
      exact ⟨r0, by simp, pre, post, by simpa [unsplitNl] using he,
        fun c hc => hc, fun c hc => hc⟩
    | cons r1 ls =>
      rw [show unsplitNl (r0 :: r1 :: ls) = r0 ++ '\n' :: unsplitNl (r1 :: ls)
        from rfl, List.append_assoc] at he
      rcases List.append_eq_append_iff.mp he with ⟨t, hpre, ht⟩ | ⟨t, hr0, ht⟩
      · cases t with
        | nil =>
          rw [List.nil_append] at ht
          cases m with
          | nil => exact absurd rfl hm
          | cons mc m' =>
            obtain ⟨rfl, -⟩ : '\n' = mc ∧ unsplitNl (r1 :: ls) = m' ++ post := by
              simpa using ht
            exact absurd (List.mem_cons_self _ _) hnl
        | cons tc t' =>
          obtain ⟨rfl, hR⟩ : '\n' = tc ∧ unsplitNl (r1 :: ls) = t' ++ (m ++ post) := by
            simpa using ht
          rw [← List.append_assoc] at hR
          obtain ⟨r, hrmem, a, b, hr, hal, hbh⟩ := ih hR (by simp)
          refine ⟨r, List.mem_cons_of_mem r0 hrmem, a, b, hr, ?_, hbh⟩
          intro c hc
          have h2 := hal c hc
          rw [hpre, getLast?_append_left _ _ (by simp)]
          cases t' with
          | nil => simp at h2
          | cons x xs => rw [List.getLast?_cons_cons]; exact h2
      · rcases List.append_eq_append_iff.mp ht with ⟨u, htu, hpost⟩ | ⟨u, hmu, hu⟩
        · refine ⟨r0, List.mem_cons_self _ _, pre, u,
            by rw [hr0, htu, List.append_assoc], fun c hc => hc, ?_⟩
          intro c hc
          rw [hpost, head?_append_left _ _ ?_]
          · exact hc
          · intro hnil
            rw [hnil] at hc
            simp at hc
        · cases u with
          | nil =>
            rw [List.append_nil] at hmu
            refine ⟨r0, List.mem_cons_self _ _, pre, [],
              by rw [hr0, hmu, List.append_nil], fun c hc => hc, ?_⟩
            intro c hc
            simp at hc
          | cons uc u' =>
            obtain ⟨rfl, -⟩ : '\n' = uc ∧ unsplitNl (r1 :: ls) = u' ++ post := by
              simpa using hu
            rw [hmu] at hnl
            exact absurd (by simp) hnl

theorem linesOf_mem {td l : List Char} (h : l ∈ linesOf td) :
    l ≠ [] ∧ ∃ r ∈ splitOnNl td, l = trimCS r := by
  unfold linesOf at h
  have h2 := List.mem_filter.mp h
  obtain ⟨r, hr, hrl⟩ := List.mem_map.mp h2.1
  exact ⟨by simpa using h2.2, r, hr, hrl.symm⟩

/-- Every line produced by the split-trim-filter pipeline sits inside the
text, flanked by whitespace or newlines (or the ends of the text), and
contains no newline. -/
theorem linesOf_mem_decomp {td l : List Char} (h : l ∈ linesOf td) :
    ∃ bfr aft, td = bfr ++ l ++ aft ∧
      (∀ c, bfr.getLast? = some c → isJsWs c = true) ∧
      (∀ c, aft.head? = some c → isJsWs c = true) ∧ '\n' ∉ l := by
  obtain ⟨hne, r, hr, rfl⟩ := linesOf_mem h
  obtain ⟨bfr0, aft0, he0, hb0, ha0⟩ := unsplit_mem_decomp hr
  rw [unsplit_splitOnNl] at he0
  obtain ⟨w1, w2, hw, hw1, hw2⟩ := trim_decomp r
  have hnlr : '\n' ∉ r := nl_not_mem_splitOnNl hr
  refine ⟨bfr0 ++ w1, w2 ++ aft0, ?_, ?_, ?_, ?_⟩
  · rw [he0]
    conv_lhs => rw [hw]
    simp [List.append_assoc]
  · intro c hc
    cases hw1e : w1 with
    | nil =>
      rw [hw1e, List.append_nil] at hc
      rw [hb0 c hc]
      decide
    | cons x xs =>
      rw [getLast?_append_left _ _ (by simp [hw1e])] at hc
      exact hw1 c (mem_of_getLast?_some hc)
  · intro c hc
    cases hw2e : w2 with
    | nil =>
      rw [hw2e, List.nil_append] at hc
      rw [ha0 c hc]
      decide
    | cons x xs =>
      rw [head?_append_left _ _ (by simp [hw2e])] at hc
      refine hw2 c ?_
      rw [hw2e] at hc ⊢
      obtain rfl : x = c := by simpa using hc
      simp
  · intro hmem
    refine hnlr ?_
    rw [hw]
    simp only [List.append_assoc, List.mem_append]
    exact Or.inr (Or.inl hmem)

/-- A newline-free, raw-pattern block of the text lies inside one of the
pipeline's lines, with the same adjacent characters (when any). -/
theorem occ_line_of_occ_text {td pre m post : List Char}
    (he : td = pre ++ m ++ post) (hraw : rawFull m = true) (hnl : '\n' ∉ m) :
    ∃ l ∈ linesOf td, ∃ a b, l = a ++ m ++ b ∧
      (∀ c, a.getLast? = some c → pre.getLast? = some c) ∧
      (∀ c, b.head? = some c → post.head? = some c) := by
  have hm : m ≠ [] := by
    intro hnil
    rw [hnil] at hraw
    simp [rawFull] at hraw
  have hud : unsplitNl (splitOnNl td) = pre ++ m ++ post := by
    rw [unsplit_splitOnNl]; exact he
  obtain ⟨r, hrmem, a0, b0, hr, ha0, hb0⟩ :=
    unsplit_occ_line hud hnl hm (splitOnNl_ne_nil td)
  have hheadm : ∀ c, m.head? = some c → isJsWs c = false := by
    intro c hc
    obtain ⟨c0, hc0, hl⟩ := rawFull_head hraw
    rw [hc0] at hc
    obtain rfl : c0 = c := by simpa using hc
    exact not_ws_of_letter hl
  have hlastm : ∀ c, m.getLast? = some c → isJsWs c = false := by
    intro c hc
    obtain ⟨c0, hc0, hl⟩ := rawFull_getLast hraw
    rw [hc0] at hc
    obtain rfl : c0 = c := by simpa using hc
    exact not_ws_of_letter hl
  obtain ⟨a, b, htr, ha, hb⟩ := trim_mid_decomp hr hm hheadm hlastm
  refine ⟨trimCS r, ?_, a, b, htr, fun c hc => ha0 c (ha c hc),
    fun c hc => hb0 c (hb c hc)⟩
  unfold linesOf
  refine List.mem_filter.mpr ⟨List.mem_map.mpr ⟨r, hrmem, rfl⟩, ?_⟩
  have hne : trimCS r ≠ [] := by
    rw [htr]
    intro hnil
    cases m with
    | nil => exact hm rfl
    | cons mc m' => simp at hnil
  simpa using hne

/-- A word-boundary-delimited block of a pipeline line is a word-boundary-
delimited, newline-free block of the whole text. -/
theorem occ_text_of_occ_line {td l a m b : List Char} (hl : l ∈ linesOf td)
    (he : l = a ++ m ++ b)
    (ha : ∀ c, a.getLast? = some c → isWordChar c = false)
    (hb : ∀ c, b.head? = some c → isWordChar c = false) :
    ∃ pre post, td = pre ++ m ++ post ∧
      (∀ c, pre.getLast? = some c → isWordChar c = false) ∧
      (∀ c, post.head? = some c → isWordChar c = false) ∧ '\n' ∉ m := by
  obtain ⟨bfr, aft, htd, hbfr, haft, hnl⟩ := linesOf_mem_decomp hl
  refine ⟨bfr ++ a, b ++ aft, ?_, ?_, ?_, ?_⟩
  · rw [htd, he]
    simp [List.append_assoc]
  · intro c hc
    cases hae : a with
    | nil =>
      rw [hae, List.append_nil] at hc
      exact not_word_of_ws (hbfr c hc)
    | cons x xs =>
      rw [getLast?_append_left _ _ (by simp [hae])] at hc
      exact ha c (hae ▸ hc)
    -- i.e. the character left of the block is the line's or the text's
  · intro c hc
    cases hbe : b with
    | nil =>
      rw [hbe, List.nil_append] at hc
      exact not_word_of_ws (haft c hc)
    | cons x xs =>
      rw [head?_append_left _ _ (by simp [hbe])] at hc
      exact hb c (hbe ▸ hc)
  · intro hmem
    refine hnl ?_
    rw [he]
    simp only [List.append_assoc, List.mem_append]
    exact Or.inr (Or.inl hmem)

/-! ## Positional occurrences -/

theorem rawOccs_mem_of_decomp {cs pre m post : List Char}
    (he : cs = pre ++ m ++ post) (hm : rawFull m = true) :
    (pre.length, m.length) ∈ rawOccs cs := by
  have hlen : pre.length + m.length + post.length = cs.length := by
    rw [he]
    simp only [List.length_append]
  have hdrop : cs.drop pre.length = m ++ post := by
    rw [he, List.append_assoc, List.drop_left]
  have htake : (cs.drop pre.length).take m.length = m := by
    rw [hdrop, List.take_left]
  unfold rawOccs
  refine List.mem_filter.mpr ⟨?_, by simpa [htake] using hm⟩
  refine List.mem_flatMap.mpr ⟨pre.length, ?_, ?_⟩
  · exact List.mem_range.mpr (by omega)
  · exact List.mem_map.mpr ⟨m.length, List.mem_range.mpr (by omega), rfl⟩

theorem bOccs_mem_of_decomp {cs pre m post : List Char}
    (he : cs = pre ++ m ++ post) (hm : rawFull m = true)
    (hpre : ∀ c, pre.getLast? = some c → isWordChar c = false)
    (hpost : ∀ c, post.head? = some c → isWordChar c = false)
    (hnl : '\n' ∉ m) :
    (pre.length, m.length) ∈ bOccs cs := by
  have hraw := rawOccs_mem_of_decomp he hm
  have htake : (cs.drop pre.length).take m.length = m := by
    rw [he, List.append_assoc, List.drop_left, List.take_left]
  have hA : (decide (pre.length = 0) || !isWordChar (cs.getD (pre.length - 1) ' ')) = true := by
    by_cases hpn : pre = []
    · simp [hpn]
    · have hlt : pre.length - 1 < pre.length := by
        cases pre with
        | nil => exact absurd rfl hpn
        | cons x xs => simp
      have hgl : pre.getLast? = some (pre.getD (pre.length - 1) ' ') := by
        rw [List.getLast?_eq_getElem? pre, List.getD_eq_getElem?_getD,
          List.getElem?_eq_getElem hlt]
        rfl
      have hcs : cs.getD (pre.length - 1) ' ' = pre.getD (pre.length - 1) ' ' := by
        rw [he, List.getD_eq_getElem?_getD, List.getD_eq_getElem?_getD,
          List.append_assoc, List.getElem?_append, if_pos hlt]
      rw [hcs, hpre _ hgl]
      simp
  have hB : (!isWordChar (cs.getD (pre.length + m.length) ' ')) = true := by
    have hcs : cs[pre.length + m.length]? = post.head? := by
      rw [he, List.append_assoc, List.getElem?_append_right (by simp)]
      rw [show pre.length + m.length - pre.length = m.length by omega]
      rw [List.getElem?_append_right (Nat.le_refl _), Nat.sub_self,
        List.head?_eq_getElem? post]
    cases hp : post with
    | nil =>
      rw [List.getD_eq_getElem?_getD, hcs, hp]
      decide
    | cons x xs =>
      rw [List.getD_eq_getElem?_getD, hcs, hp]
      simpa using hpost x (by rw [hp]; rfl)
  have hC : (!((cs.drop pre.length).take m.length).contains '\n') = true := by
    rw [htake]
    simpa using hnl
  unfold bOccs
  refine List.mem_filter.mpr ⟨hraw, ?_⟩
  rw [hA, hB]
  simpa using hC

theorem bOccs_decomp_of_mem {cs : List Char} {i l : Nat}
    (h : (i, l) ∈ bOccs cs) :
    ∃ pre m post, cs = pre ++ m ++ post ∧ pre.length = i ∧ m.length = l ∧
      m = (cs.drop i).take l ∧ rawFull m = true ∧
      (∀ c, pre.getLast? = some c → isWordChar c = false) ∧
      (∀ c, post.head? = some c → isWordChar c = false) ∧ '\n' ∉ m := by
  unfold bOccs at h
  have h2 := List.mem_filter.mp h
  have hocc := h2.1
  unfold rawOccs at hocc
  have h3 := List.mem_filter.mp hocc
  obtain ⟨hrange, hfull⟩ := h3
  obtain ⟨i0, hi0, hmap⟩ := List.mem_flatMap.mp hrange
  obtain ⟨l0, hl0, hpair⟩ := List.mem_map.mp hmap
  have h1i : i0 = i := congrArg Prod.fst hpair
  have h1l : l0 = l := congrArg Prod.snd hpair
  have hi : i ≤ cs.length := by
    have := List.mem_range.mp hi0
    omega
  have hl : i + l ≤ cs.length := by
    have := List.mem_range.mp hl0
    omega
  set m : List Char := (cs.drop i).take l with hm
  set pre : List Char := cs.take i with hpre
  set post : List Char := cs.drop (i + l) with hpost
  have hsplit : cs = pre ++ m ++ post := by
    rw [hpre, hm, hpost, List.append_assoc]
    rw [show cs.drop (i + l) = (cs.drop i).drop l by rw [List.drop_drop, Nat.add_comm]]
    rw [List.take_append_drop, List.take_append_drop]
  have hprelen : pre.length = i := by
    rw [hpre, List.length_take]
    omega
  have hmlen : m.length = l := by
    rw [hm, List.length_take, List.length_drop]
    omega
  have hfull' : rawFull m = true := by simpa [hm] using hfull
  have hcond := h2.2
  simp only [Bool.and_eq_true, Bool.or_eq_true, decide_eq_true_eq,
    Bool.not_eq_eq_eq_not, Bool.not_true] at hcond
  obtain ⟨⟨hb1, hb2⟩, hb3⟩ := hcond
  refine ⟨pre, m, post, hsplit, hprelen, hmlen, rfl, hfull', ?_, ?_, ?_⟩
  · intro c hc
    have hine : i ≠ 0 := by
      intro h0
      rw [hpre, h0] at hc
      simp at hc
    rcases hb1 with h0 | hword
    · exact absurd h0 hine
    have hgl : pre.getLast? = cs[i - 1]? := by
      rw [hpre, List.getLast?_eq_getElem? (cs.take i), List.length_take,
        List.getElem?_take, if_pos (by omega)]
      congr 1
      omega
    rw [hgl] at hc
    have hcd : cs.getD (i - 1) ' ' = c := by
      rw [List.getD_eq_getElem?_getD, hc]
      rfl
    rw [← hcd]
    exact hword
  · intro c hc
    have hh : post.head? = cs[i + l]? := by
      rw [hpost, List.head?_eq_getElem? (cs.drop (i + l)), List.getElem?_drop,
        Nat.add_zero]
    rw [hh] at hc
    have hcd : cs.getD (i + l) ' ' = c := by
      rw [List.getD_eq_getElem?_getD, hc]
      rfl
    rw [← hcd]
    exact hb2
  · intro hmem
    have hcontains : m.contains '\n' = true := by simpa using hmem
    rw [hcontains] at hb3
    cases hb3

/-! ## The postcode locator -/

theorem findPcIdx_spec {ls : List (List Char)} {k : Nat}
    (h : findPcIdx ls = some k) :
    k < ls.length ∧ pcTestB false (ls.getD k []) = true ∧
      ∀ j, j < k → pcTestB false (ls.getD j []) = false := by
  induction ls generalizing k with
  | nil => simp [findPcIdx] at h
  | cons l ls ih =>
    unfold findPcIdx at h
    split at h
    case isTrue ht =>
      obtain rfl : 0 = k := by simpa using h
      exact ⟨by simp, by simpa using ht, fun j hj => by omega⟩
    case isFalse hf =>
      cases hrec : findPcIdx ls with
      | none => rw [hrec] at h; simp at h
      | some k' =>
        rw [hrec] at h
        obtain rfl : k' + 1 = k := by simpa using h
        obtain ⟨hlt, htest, hbefore⟩ := ih hrec
        refine ⟨by simpa using hlt, by simpa using htest, ?_⟩
        intro j hj
        cases j with
        | zero => simpa using Bool.of_not_eq_true hf
        | succ j' => simpa using hbefore j' (by omega)

theorem findPcIdx_isSome_of_mem {ls : List (List Char)} {l : List Char}
    (hl : l ∈ ls) (h : pcTestB false l = true) :
    (findPcIdx ls).isSome = true := by
  induction ls with
  | nil => simp at hl
  | cons l0 ls ih =>
    unfold findPcIdx
    split
    · simp
    case isFalse hf =>
      rcases List.mem_cons.mp hl with rfl | hl'
      · exact absurd h hf
      · cases hrec : findPcIdx ls with
        | none => rw [hrec] at ih; simpa using ih hl'
        | some k => simp [hrec]

theorem getD_mem {ls : List (List Char)} {k : Nat} (hk : k < ls.length) :
    ls.getD k [] ∈ ls := by
  rw [List.getD_eq_getElem?_getD, List.getElem?_eq_getElem hk]
  exact List.getElem_mem hk

theorem string_mk_data (s : String) : String.mk s.data = s := rfl

/-! ## The backward collector -/

theorem collectAddr_length (ls : List (List Char)) :
    ∀ (i fuel : Nat) (acc : List (List Char)),
      (collectAddr ls i fuel acc).1.length ≤ max 4 acc.length := by
  intro i
  induction i with
  | zero =>
    intro fuel acc
    cases fuel <;> simp [collectAddr]
  | succ i ih =>
    intro fuel acc
    cases fuel with
    | zero => simp [collectAddr]
    | succ fuel =>
      unfold collectAddr
      split
      case isTrue => simp
      case isFalse hlt =>
        dsimp only
        split
        · exact le_trans (ih fuel acc) (by omega)
        split
        · exact le_trans (ih fuel acc) (by omega)
        · refine le_trans (ih fuel (ls.getD i [] :: acc)) ?_
          simp only [List.length_cons]
          omega

theorem collectAddr_window (ls : List (List Char)) :
    ∀ (i fuel : Nat) (acc : List (List Char)),
      (collectAddr ls i fuel acc).2 ≤ fuel ∧
      ∀ x ∈ (collectAddr ls i fuel acc).1,
        x ∈ acc ∨ ∃ j, j < i ∧ i ≤ j + fuel ∧ ls.getD j [] = x := by
  intro i
  induction i with
  | zero =>
    intro fuel acc
    cases fuel with
    | zero => exact ⟨by simp [collectAddr], fun x hx => Or.inl (by simpa [collectAddr] using hx)⟩
    | succ fuel => exact ⟨by simp [collectAddr], fun x hx => Or.inl (by simpa [collectAddr] using hx)⟩
  | succ i ih =>
    intro fuel acc
    cases fuel with
    | zero => exact ⟨by simp [collectAddr], fun x hx => Or.inl (by simpa [collectAddr] using hx)⟩
    | succ fuel =>
      unfold collectAddr
      split
      case isTrue => exact ⟨by simp, fun x hx => Or.inl (by simpa using hx)⟩
      case isFalse hlt =>
        have hres : ∀ (acc' : List (List Char))
            (hsub : ∀ x ∈ acc', x ∈ acc ∨ ls.getD i [] = x),
            (collectAddr ls i fuel acc').2 + 1 ≤ fuel + 1 ∧
            ∀ x ∈ (collectAddr ls i fuel acc').1,
              x ∈ acc ∨ ∃ j, j < i + 1 ∧ i + 1 ≤ j + (fuel + 1) ∧ ls.getD j [] = x := by
          intro acc' hsub
          obtain ⟨hcount, hmem⟩ := ih fuel acc'
          refine ⟨by omega, ?_⟩
          intro x hx
          rcases hmem x hx with hacc | ⟨j, hj1, hj2, hj3⟩
          · rcases hsub x hacc with hacc' | hline
            · exact Or.inl hacc'
            · exact Or.inr ⟨i, by omega, by omega, hline⟩
          · exact Or.inr ⟨j, by omega, by omega, hj3⟩
        dsimp only
        split
        · exact hres acc (fun x hx => Or.inl hx)
        split
        · exact hres acc (fun x hx => Or.inl hx)
        · refine hres (ls.getD i [] :: acc) ?_
          intro x hx
          rcases List.mem_cons.mp hx with rfl | hx
          · exact Or.inr rfl
          · exact Or.inl hx

theorem collectAddr_sublist (ls : List (List Char)) :
    ∀ (i fuel : Nat) (acc : List (List Char)), i ≤ ls.length →
      ∃ p, (collectAddr ls i fuel acc).1 = p ++ acc ∧
        p.Sublist (ls.take i) := by
  intro i
  induction i with
  | zero =>
    intro fuel acc _
    cases fuel with
    | zero => exact ⟨[], by simp [collectAddr], by simp⟩
    | succ fuel => exact ⟨[], by simp [collectAddr], by simp⟩
  | succ i ih =>
    intro fuel acc hle
    have hlt : i < ls.length := by omega
    have htake : ls.take (i + 1) = ls.take i ++ [ls.getD i []] := by
      rw [List.take_succ, List.getElem?_eq_getElem hlt]
      simp [List.getD_eq_getElem?_getD, List.getElem?_eq_getElem hlt]
    cases fuel with
    | zero => exact ⟨[], by simp [collectAddr], by simp⟩
    | succ fuel =>
      unfold collectAddr
      split
      case isTrue => exact ⟨[], by simp, by simp⟩
      case isFalse hlen =>
        dsimp only
        split
        · obtain ⟨p, hp, hps⟩ := ih fuel acc (by omega)
          exact ⟨p, by simpa using hp, hps.trans (by rw [htake]; simp)⟩
        split
        · obtain ⟨p, hp, hps⟩ := ih fuel acc (by omega)
          exact ⟨p, by simpa using hp, hps.trans (by rw [htake]; simp)⟩
        · obtain ⟨p, hp, hps⟩ := ih fuel (ls.getD i [] :: acc) (by omega)
          refine ⟨p ++ [ls.getD i []], by simpa using hp, ?_⟩
          rw [htake]
          exact List.Sublist.append hps (List.Sublist.refl _)

/-! ## The claims -/

/-- Claim C1: for every input string in which no substring matches the UK/NI
postcode pattern (so no line passes the postcode test), `extractAddress`
returns the input string unchanged — the verbatim fallback, with no partial
heuristic applied. -/
theorem c1_verbatim_fallback (text : String) (h : rawOccs text.data = []) :
    extractAddress text = text := by
  have hnone : findPcIdx (linesOf text.data) = none := by
    cases hfind : findPcIdx (linesOf text.data) with
    | none => rfl
    | some k =>
      exfalso
      obtain ⟨hk, htest, -⟩ := findPcIdx_spec hfind
      have hmem : (linesOf text.data).getD k [] ∈ linesOf text.data := getD_mem hk
      rw [pcTestB_iff_scan] at htest
      obtain ⟨m, hm⟩ := Option.isSome_iff_exists.mp htest
      obtain ⟨p, s, he, -, -, -, hraw⟩ := pcScan_sound hm
      obtain ⟨bfr, aft, htd, -, -, -⟩ := linesOf_mem_decomp hmem
      have hocc : text.data = (bfr ++ p) ++ m ++ (s ++ aft) := by
        rw [htd, he]
        simp [List.append_assoc]
      have hne := rawOccs_mem_of_decomp hocc hraw
      rw [h] at hne
      simp at hne
  unfold extractAddress extractL
  simp only [hnone]

theorem c1_verbatim_fallback_witness :
    rawOccs (String.data "NO CODE\nHERE") = [] ∧
      extractAddress "NO CODE\nHERE" = "NO CODE\nHERE" :=
  ⟨by decide, c1_verbatim_fallback "NO CODE\nHERE" (by decide)⟩

/-- Claim C4: on the exact Scenario B input, the lines `"SHIP TO"` and `"3£"`
are rejected by the noise classifier and the remaining three lines are kept
in order before the postcode. -/
theorem c4_scenario_b :
    extractAddress "SHIP TO\n3£\nJOHN SMITH\n42 HIGH STREET\nBELFAST\nBT1 1AA" =
      "JOHN SMITH, 42 HIGH STREET, BELFAST, BT1 1AA" ∧
    isPackageMetadata (String.data "SHIP TO") = true ∧
    isPackageMetadata (String.data "3£") = true ∧
    isPackageMetadata (String.data "JOHN SMITH") = false ∧
    isPackageMetadata (String.data "42 HIGH STREET") = false ∧
    isPackageMetadata (String.data "BELFAST") = false := by
  refine ⟨by decide, by decide, by decide, by decide, by decide, by decide⟩

/-- Claim C3: whenever `extractAddress` locates a postcode, at most 4 address
lines appear before the postcode in the returned comma-joined string, no
matter how many valid-looking lines precede the postcode line.  The output
is pinned exactly: it is the comma-join of the collector's accepted lines
followed by the postcode taken from the located line, and the collector's
accepted-line list has length at most 4. -/
theorem c3_at_most_four_lines (text : String) (k : Nat)
    (h : findPcIdx (linesOf text.data) = some k) :
    extractAddress text =
      String.mk (joinCS
        ((collectAddr (linesOf text.data) k (min 8 k) []).1 ++
          [(pcScan false ((linesOf text.data).getD k [])).getD
              ((linesOf text.data).getD k [])])) ∧
    (collectAddr (linesOf text.data) k (min 8 k) []).1.length ≤ 4 := by
  refine ⟨?_, by simpa using collectAddr_length (linesOf text.data) k (min 8 k) []⟩
  unfold extractAddress extractL
  simp only [h]
  cases pcScan false ((linesOf text.data).getD k []) <;> rfl

theorem c3_at_most_four_lines_witness :
    findPcIdx (linesOf (String.data "A ROAD\nBT9 6AB")) = some 1 ∧
      (extractAddress "A ROAD\nBT9 6AB" =
        String.mk (joinCS
          ((collectAddr (linesOf (String.data "A ROAD\nBT9 6AB")) 1 (min 8 1) []).1 ++
            [(pcScan false ((linesOf (String.data "A ROAD\nBT9 6AB")).getD 1 [])).getD
                ((linesOf (String.data "A ROAD\nBT9 6AB")).getD 1 [])])) ∧
      (collectAddr (linesOf (String.data "A ROAD\nBT9 6AB")) 1 (min 8 1) []).1.length ≤ 4) :=
  ⟨by decide, c3_at_most_four_lines "A ROAD\nBT9 6AB" 1 (by decide)⟩

/-- Claim C5: the assembler inspects at most 8 lines while walking backward
from the line before the postcode (accepted or rejected), so every retained
address line is one of the at most 8 lines immediately preceding the
postcode line, and at most 4 lines are retained. -/
theorem c5_assembler_budget (ls : List (List Char)) (idx : Nat) :
    (collectAddr ls idx (min 8 idx) []).2 ≤ 8 ∧
    (collectAddr ls idx (min 8 idx) []).1.length ≤ 4 ∧
    ∀ x ∈ (collectAddr ls idx (min 8 idx) []).1,
      ∃ j, j < idx ∧ idx ≤ j + 8 ∧ ls.getD j [] = x := by
  obtain ⟨hcount, hmem⟩ := collectAddr_window ls idx (min 8 idx) []
  refine ⟨by omega, by simpa using collectAddr_length ls idx (min 8 idx) [], ?_⟩
  intro x hx
  rcases hmem x hx with hacc | ⟨j, hj1, hj2, hj3⟩
  · simp at hacc
  · exact ⟨j, hj1, by omega, hj3⟩

/-- Claim C6: the accepted address lines appear in the output in their
original top-down order: the collector's accepted-line list — whose
comma-join with the postcode taken from the located line is pinned to be
exactly the output — is an order-preserving subsequence (`List.Sublist`) of
the lines preceding the postcode line. -/
theorem c6_order_preserved (text : String) (k : Nat)
    (h : findPcIdx (linesOf text.data) = some k) :
    extractAddress text =
      String.mk (joinCS
        ((collectAddr (linesOf text.data) k (min 8 k) []).1 ++
          [(pcScan false ((linesOf text.data).getD k [])).getD
              ((linesOf text.data).getD k [])])) ∧
    ((collectAddr (linesOf text.data) k (min 8 k) []).1).Sublist
      ((linesOf text.data).take k) := by
  have hk := (findPcIdx_spec h).1
  constructor
  · unfold extractAddress extractL
    simp only [h]
    cases pcScan false ((linesOf text.data).getD k []) <;> rfl
  · obtain ⟨p, hp, hps⟩ :=
      collectAddr_sublist (linesOf text.data) k (min 8 k) [] (by omega)
    rw [hp]
    simpa using hps

theorem c6_order_preserved_witness :
    findPcIdx (linesOf (String.data "MARY JONES\n5 LOW LANE\nBT48 7PQ")) = some 2 ∧
      (extractAddress "MARY JONES\n5 LOW LANE\nBT48 7PQ" =
        String.mk (joinCS
          ((collectAddr (linesOf (String.data "MARY JONES\n5 LOW LANE\nBT48 7PQ"))
              2 (min 8 2) []).1 ++
            [(pcScan false
                ((linesOf (String.data "MARY JONES\n5 LOW LANE\nBT48 7PQ")).getD 2 [])).getD
                ((linesOf (String.data "MARY JONES\n5 LOW LANE\nBT48 7PQ")).getD 2 [])])) ∧
      ((collectAddr (linesOf (String.data "MARY JONES\n5 LOW LANE\nBT48 7PQ"))
          2 (min 8 2) []).1).Sublist
        ((linesOf (String.data "MARY JONES\n5 LOW LANE\nBT48 7PQ")).take 2)) :=
  ⟨by decide, c6_order_preserved "MARY JONES\n5 LOW LANE\nBT48 7PQ" 2 (by decide)⟩

theorem special1_of_special3 {c : Char} (h : special3 c = true) :
    special1 c = true := by
  unfold special3 at h
  unfold special1
  rw [h]
  simp

theorem not_term_of_not_ws {c : Char} (h : isJsWs c = false) :
    isLineTerm c = false := by
  simp only [isJsWs, decide_eq_false_iff_not] at h
  simp only [isLineTerm, decide_eq_false_iff_not]
  omega

theorem noTermS_of_decomp {u v : List Char} {z : Char} (hz : special3 z = true)
    (hu : ∀ c ∈ u, isLineTerm c = false) :
    noTermS (u ++ z :: v) = true := by
  induction u with
  | nil => simp [noTermS, hz]
  | cons c u ih =>
    rw [List.cons_append]
    unfold noTermS
    rw [hu c (by simp), ih (fun d hd => hu d (by simp [hd]))]
    simp

theorem noTermDS_of_decomp {u w : List Char} {y : Char} (hy : isDigitC y = true)
    (hw : noTermS w = true) (hu : ∀ c ∈ u, isLineTerm c = false) :
    noTermDS (u ++ y :: w) = true := by
  induction u with
  | nil => simp [noTermDS, hy, hw]
  | cons c u ih =>
    rw [List.cons_append]
    unfold noTermDS
    rw [hu c (by simp), ih (fun d hd => hu d (by simp [hd]))]
    simp

theorem hasLDSpecial_of_decomp {u w : List Char} {x : Char}
    (hx : isAsciiLetter x = true) (hw : noTermDS w = true) :
    hasLDSpecial (u ++ x :: w) = true := by
  induction u with
  | nil => simp [hasLDSpecial, hx, hw]
  | cons c u ih =>
    rw [List.cons_append]
    unfold hasLDSpecial
    rw [ih]
    simp

/-- Claim C7, as stated, fails: the line `"£1abcdefg2"` has no whitespace and
mixes a letter, a digit and a special character, yet `isPackageMetadata`
accepts it (returns `false`): the garbled-token rule requires the letter to
come before the digit and the digit before the special character. -/
theorem c7_counterexample :
    (∀ c ∈ String.data "£1abcdefg2", isJsWs c = false) ∧
    (∃ c ∈ String.data "£1abcdefg2", isAsciiLetter c = true) ∧
    (∃ c ∈ String.data "£1abcdefg2", isDigitC c = true) ∧
    (∃ c ∈ String.data "£1abcdefg2", special3 c = true) ∧
    isPackageMetadata (String.data "£1abcdefg2") = false := by
  refine ⟨by decide, by decide, by decide, by decide, by decide⟩

/-- Claim C7, amended: every line whose trimmed form contains no whitespace
and contains a letter, followed later by a digit, followed later by a
special character of `[£$€¥#@%&*]`, is rejected by `isPackageMetadata`
(through the garbled-token rule when longer than 3 characters, and through
the short-noise rule at exactly 3). -/
theorem c7_ordered_mix_noise (line as bs cs2 ds : List Char) (x y z : Char)
    (ht : trimCS line = as ++ x :: bs ++ y :: cs2 ++ z :: ds)
    (hx : isAsciiLetter x = true) (hy : isDigitC y = true)
    (hz : special3 z = true)
    (hws : ∀ c ∈ trimCS line, isJsWs c = false) :
    isPackageMetadata line = true := by
  have hlen : (trimCS line).length = as.length + bs.length + cs2.length + ds.length + 3 := by
    rw [ht]
    simp only [List.length_append, List.length_cons]
    omega
  have hterm : ∀ c ∈ trimCS line, isLineTerm c = false :=
    fun c hc => not_term_of_not_ws (hws c hc)
  have hcase : (decide ((trimCS line).length < 4) &&
        (trimCS line).any special1) = true ∨
      (decide (3 < (trimCS line).length) && !(trimCS line).any isJsWs &&
        hasLDSpecial (trimCS line)) = true := by
    by_cases hn : 3 < (trimCS line).length
    · refine Or.inr ?_
      have hany : (trimCS line).any isJsWs = false := by
        rw [List.any_eq_false]
        intro c hc
        simp [hws c hc]
      have hld : hasLDSpecial (trimCS line) = true := by
        have hS : noTermS (cs2 ++ z :: ds) = true :=
          noTermS_of_decomp hz (fun c hc => hterm c (by rw [ht]; simp [hc]))
        have hDS : noTermDS (bs ++ y :: (cs2 ++ z :: ds)) = true :=
          noTermDS_of_decomp hy hS (fun c hc => hterm c (by rw [ht]; simp [hc]))
        have hLD := hasLDSpecial_of_decomp (u := as) hx hDS
        rw [ht]
        simpa [List.cons_append, List.append_assoc] using hLD
      simp [hn, hany, hld]
    · refine Or.inl ?_
      obtain ⟨rfl, rfl, rfl, rfl⟩ :
          as = [] ∧ bs = [] ∧ cs2 = [] ∧ ds = [] := by
        refine ⟨?_, ?_, ?_, ?_⟩ <;> (rw [← List.length_eq_zero]; omega)
      have hmem : z ∈ trimCS line := by
        rw [ht]; simp
      have hany : (trimCS line).any special1 = true :=
        List.any_eq_true.mpr ⟨z, hmem, special1_of_special3 hz⟩
      simp [hany]
      omega
  unfold isPackageMetadata
  dsimp only
  split_ifs with h1 h2 h3 h4 h5 h6 h7 h8 <;> try rfl
  rcases hcase with hc1 | hc3
  · exact absurd hc1 (by simpa using h1)
  · exact absurd hc3 (by simpa using h3)

theorem c7_ordered_mix_noise_witness :
    trimCS (String.data "a1£") =
        [] ++ 'a' :: [] ++ '1' :: [] ++ '£' :: ([] : List Char) ∧
      isAsciiLetter 'a' = true ∧ isDigitC '1' = true ∧ special3 '£' = true ∧
      (∀ c ∈ trimCS (String.data "a1£"), isJsWs c = false) ∧
      isPackageMetadata (String.data "a1£") = true :=
  ⟨by decide, by decide, by decide, by decide, by decide,
    c7_ordered_mix_noise (String.data "a1£") [] [] [] [] 'a' '1' '£'
      (by decide) (by decide) (by decide) (by decide) (by decide)⟩

/-- Claim C9: the classifier predicates are total functions on strings: for
every input — including the empty string, lines of only symbols, and
unicode input — they return a boolean.  The digit-ratio and letter-ratio
comparisons are modelled division-free (exact cross multiplication), which
also captures that JavaScript's `0/0 = NaN` compares false on the empty
string. -/
theorem c9_classifiers_total :
    (∀ line : List Char,
      isPackageMetadata line = true ∨ isPackageMetadata line = false) ∧
    (∀ line : List Char,
      isValidAddressLine line = true ∨ isValidAddressLine line = false) ∧
    isPackageMetadata (String.data "") = false ∧
    isValidAddressLine (String.data "") = false ∧
    isPackageMetadata (String.data "£££") = true ∧
    isValidAddressLine (String.data "£££") = false ∧
    isPackageMetadata (String.data "日本語") = false ∧
    isValidAddressLine (String.data "日本語") = false := by
  refine ⟨fun line => Bool.eq_false_or_eq_true _,
    fun line => Bool.eq_false_or_eq_true _,
    by decide, by decide, by decide, by decide, by decide, by decide⟩

/-- Claim C10: whenever the postcode locator selects index `k` because line
`k` passes the regex test, re-matching the same regex on that line
succeeds, so the whole-line fallback branch is unreachable: the appended
postcode is always the exact matched substring. -/
theorem c10_match_branch_taken (text : String) (k : Nat)
    (h : findPcIdx (linesOf text.data) = some k) :
    ∃ m, pcScan false ((linesOf text.data).getD k []) = some m ∧
      ∃ addr, extractAddress text = String.mk (joinCS (addr ++ [m])) := by
  have htest := (findPcIdx_spec h).2.1
  rw [pcTestB_iff_scan] at htest
  obtain ⟨m, hm⟩ := Option.isSome_iff_exists.mp htest
  refine ⟨m, hm, ?_⟩
  unfold extractAddress extractL
  simp only [h, hm]
  exact ⟨_, rfl⟩

theorem c10_match_branch_taken_witness :
    findPcIdx (linesOf (String.data "10 OAK AVE\nG1 2AB")) = some 1 ∧
      ∃ m, pcScan false ((linesOf (String.data "10 OAK AVE\nG1 2AB")).getD 1 []) = some m ∧
        ∃ addr, extractAddress "10 OAK AVE\nG1 2AB" =
          String.mk (joinCS (addr ++ [m])) :=
  ⟨by decide, c10_match_branch_taken "10 OAK AVE\nG1 2AB" 1 (by decide)⟩

/-! ## The trailing comma-separated component -/

theorem splitCS_ne_nil (cs : List Char) : splitCS cs ≠ [] := by
  induction cs using splitCS.induct with
  | case1 => simp [splitCS]
  | case2 c => simp [splitCS]
  | case3 c1 c2 cs hcond ih => simp [splitCS, hcond]
  | case4 c1 c2 cs hcond heq ih =>
    unfold splitCS
    rw [if_neg hcond, heq]
    simp
  | case5 c1 c2 cs hcond l ls heq ih =>
    unfold splitCS
    rw [if_neg hcond, heq]
    simp

theorem getLastD_cons_of_ne_nil {α : Type} {l : List α} (h : l ≠ []) (a d d' : α) :
    (a :: l).getLastD d = l.getLastD d' := by
  cases l with
  | nil => exact absurd rfl h
  | cons x xs => simp only [List.getLastD_cons]

theorem splitCS_no_comma (w : List Char) : ',' ∉ w → splitCS w = [w] := by
  induction w using splitCS.induct with
  | case1 => intro _; rfl
  | case2 c => intro _; rfl
  | case3 c1 c2 cs hcond ih =>
    intro h
    exact absurd (List.mem_cons.mpr (Or.inl hcond.1.symm)) h
  | case4 c1 c2 cs hcond heq ih =>
    exact absurd heq (splitCS_ne_nil _)
  | case5 c1 c2 cs hcond l ls heq ih =>
    intro h
    have h2 : ',' ∉ c2 :: cs := fun hm => h (List.mem_cons_of_mem _ hm)
    rw [ih h2] at heq
    obtain ⟨rfl, rfl⟩ : c2 :: cs = l ∧ ([] : List (List Char)) = ls := by
      simpa using heq
    unfold splitCS
    rw [if_neg hcond, ih h2]

theorem splitCS_sep_head (w : List Char) :
    splitCS (',' :: ' ' :: w) = [] :: splitCS w := by
  rw [splitCS, if_pos ⟨rfl, rfl⟩]

theorem lastComma_sep (w : List Char) (u : List Char) :
    2 ≤ (splitCS (u ++ ',' :: ' ' :: w)).length ∧
    (splitCS (u ++ ',' :: ' ' :: w)).getLastD [] = (splitCS w).getLastD [] := by
  induction u using splitCS.induct with
  | case1 =>
    rw [List.nil_append, splitCS_sep_head]
    constructor
    · cases hs : splitCS w with
      | nil => exact absurd hs (splitCS_ne_nil w)
      | cons l ls => simp
    · exact getLastD_cons_of_ne_nil (splitCS_ne_nil w) [] [] []
  | case2 c =>
    have hstep : splitCS ([c] ++ ',' :: ' ' :: w) = [c] :: splitCS w := by
      simp only [List.cons_append, List.nil_append]
      rw [splitCS, if_neg (by simp), splitCS_sep_head]
    rw [hstep]
    constructor
    · cases hs : splitCS w with
      | nil => exact absurd hs (splitCS_ne_nil w)
      | cons l ls => simp
    · exact getLastD_cons_of_ne_nil (splitCS_ne_nil w) [c] [] []
  | case3 c1 c2 cs hcond ih =>
    have hstep : splitCS ((c1 :: c2 :: cs) ++ ',' :: ' ' :: w) =
        [] :: splitCS (cs ++ ',' :: ' ' :: w) := by
      simp only [List.cons_append]
      rw [splitCS, if_pos hcond]
    rw [hstep]
    obtain ⟨ih1, ih2⟩ := ih
    constructor
    · cases hs : splitCS (cs ++ ',' :: ' ' :: w) with
      | nil => exact absurd hs (splitCS_ne_nil _)
      | cons l ls => simp
    · rw [getLastD_cons_of_ne_nil (splitCS_ne_nil _) [] [] []]
      exact ih2
  | case4 c1 c2 cs hcond heq ih =>
    exact absurd heq (splitCS_ne_nil _)
  | case5 c1 c2 cs hcond l ls heq ih =>
    obtain ⟨ih1, ih2⟩ := ih
    simp only [List.cons_append] at ih1 ih2
    cases hs : splitCS (c2 :: (cs ++ ',' :: ' ' :: w)) with
    | nil => exact absurd hs (splitCS_ne_nil _)
    | cons l0 ls0 =>
      have hstep : splitCS ((c1 :: c2 :: cs) ++ ',' :: ' ' :: w) =
          (c1 :: l0) :: ls0 := by
        simp only [List.cons_append]
        rw [splitCS, if_neg hcond, hs]
      have hls0 : ls0 ≠ [] := by
        intro hnil
        rw [hs, hnil] at ih1
        simp at ih1
      rw [hstep]
      constructor
      · cases ls0 with
        | nil => exact absurd rfl hls0
        | cons z zs => simp
      · rw [getLastD_cons_of_ne_nil hls0 (c1 :: l0) [] []]
        rw [hs, getLastD_cons_of_ne_nil hls0 l0 [] []] at ih2
        exact ih2

theorem joinCS_cons (x : List Char) (xs : List (List Char)) (hxs : xs ≠ []) :
    joinCS (x :: xs) = x ++ ',' :: ' ' :: joinCS xs := by
  cases xs with
  | nil => exact absurd rfl hxs
  | cons y ys => rfl

theorem lastComma_join {v : List Char} (hv : ',' ∉ v) :
    ∀ xs, lastComma (joinCS (xs ++ [v])) = v := by
  intro xs
  induction xs with
  | nil =>
    show lastComma (joinCS [v]) = v
    unfold lastComma
    rw [show joinCS [v] = v from rfl, splitCS_no_comma v hv]
    rfl
  | cons x xs ih =>
    have hjoin : joinCS ((x :: xs) ++ [v]) = x ++ ',' :: ' ' :: joinCS (xs ++ [v]) := by
      rw [List.cons_append]
      exact joinCS_cons x (xs ++ [v]) (by simp)
    unfold lastComma at ih ⊢
    rw [hjoin, (lastComma_sep (joinCS (xs ++ [v])) x).2]
    exact ih

/-- Claim C2, as stated, fails: the input `"9A1 1AA"` contains exactly one
substring matching the raw postcode pattern, namely `"A1 1AA"` (at offset 1,
length 6), yet the returned string's trailing comma-separated component is
the whole unchanged input: the code's regex requires a word boundary, and
`'9'` is a word character, so no line passes the test. -/
theorem c2_counterexample :
    rawOccs (String.data "9A1 1AA") = [(1, 6)] ∧
    ((String.data "9A1 1AA").drop 1).take 6 = String.data "A1 1AA" ∧
    lastComma (extractL (String.data "9A1 1AA")) = String.data "9A1 1AA" ∧
    String.data "9A1 1AA" ≠ String.data "A1 1AA" := by
  refine ⟨by decide, by decide, by decide, by decide⟩

/-- Claim C2, amended: for every input string with exactly one word-boundary-
delimited, newline-free occurrence of the postcode pattern (as the code's
`\b`-anchored regex sees it), the returned string's trailing
comma-separated component is exactly that occurrence's text, case
preserved. -/
theorem c2_unique_occurrence_trailing (text : String) (i l : Nat)
    (h : bOccs text.data = [(i, l)]) :
    lastComma (extractL text.data) = (text.data.drop i).take l := by
  have hmem : (i, l) ∈ bOccs text.data := by rw [h]; simp
  obtain ⟨pre, m, post, he, hplen, hmlen, hslice, hraw, hpre, hpost, hnl⟩ :=
    bOccs_decomp_of_mem hmem
  -- the unique occurrence lies in one line, which therefore passes the test
  obtain ⟨l0, hl0, a, b, hl0e, ha, hb⟩ := occ_line_of_occ_text he hraw hnl
  have hb' : ∀ c, b.head? = some c → isWordChar c = false :=
    fun c hc => hpost c (hb c hc)
  have ha' : ∀ c, a.getLast? = some c → isWordChar c = false :=
    fun c hc => hpre c (ha c hc)
  have hscan : (pcScan false l0).isSome = true := by
    rw [hl0e]
    exact pcScan_complete a false m b hraw hb' ha' (fun _ => rfl)
  have hfind : (findPcIdx (linesOf text.data)).isSome = true :=
    findPcIdx_isSome_of_mem hl0 (by rw [pcTestB_iff_scan]; exact hscan)
  obtain ⟨k, hk⟩ := Option.isSome_iff_exists.mp hfind
  obtain ⟨hklt, hktest, -⟩ := findPcIdx_spec hk
  -- the located line's first match is an occurrence of the text, hence the
  -- unique one
  rw [pcTestB_iff_scan] at hktest
  obtain ⟨m', hm'⟩ := Option.isSome_iff_exists.mp hktest
  obtain ⟨p', s', hke, hperel, hpnil, hpost', hraw'⟩ := pcScan_sound hm'
  obtain ⟨pre2, post2, he2, hpre2, hpost2, hnl2⟩ :=
    occ_text_of_occ_line (getD_mem hklt) hke hperel hpost'
  have hocc2 : (pre2.length, m'.length) ∈ bOccs text.data :=
    bOccs_mem_of_decomp he2 hraw' hpre2 hpost2 hnl2
  rw [h] at hocc2
  obtain ⟨hpi, hml⟩ : pre2.length = i ∧ m'.length = l := by simpa using hocc2
  have hm'slice : m' = (text.data.drop i).take l := by
    rw [← hpi, ← hml, he2, List.append_assoc, List.drop_left, List.take_left]
  -- evaluate the extraction
  unfold extractL
  simp only [hk, hm']
  rw [← hm'slice]
  exact lastComma_join (rawFull_not_comma hraw') _

theorem c2_unique_occurrence_trailing_witness :
    bOccs (String.data "JOHN\nBT1 1AA") = [(5, 7)] ∧
      lastComma (extractL (String.data "JOHN\nBT1 1AA")) =
        ((String.data "JOHN\nBT1 1AA").drop 5).take 7 :=
  ⟨by decide, c2_unique_occurrence_trailing "JOHN\nBT1 1AA" 5 7 (by decide)⟩

/-! ## Scanning the assembled output -/

theorem matchCore_not_letter {c : Char} (h : isAsciiLetter c = false)
    (cs : List Char) : matchCore (c :: cs) = none := by
  simp [matchCore, h]

theorem pcScan_cons_none {f : Bool} {c : Char} {cs : List Char}
    (h : (if f = true then none else matchCore (c :: cs)) = none) :
    pcScan f (c :: cs) = pcScan (isWordChar c) cs := by
  conv_lhs => rw [pcScan]
  rw [h]

/-- A match can never cross a comma: appending a comma-led tail cannot make
a failed position succeed. -/
theorem matchCore_append_comma {u w : List Char} (h : matchCore u = none) :
    matchCore (u ++ ',' :: w) = none := by
  cases hmc : matchCore (u ++ ',' :: w) with
  | none => rfl
  | some pr =>
    exfalso
    obtain ⟨m, r⟩ := pr
    obtain ⟨he, hraw, hb⟩ := matchCore_sound hmc
    rcases List.append_eq_append_iff.mp he with ⟨t, hm, ht⟩ | ⟨t, hu, ht⟩
    · cases t with
      | nil =>
        rw [List.append_nil] at hm
        have hsome := matchCore_complete hraw (r := []) rfl
        rw [List.append_nil, hm, h] at hsome
        simp at hsome
      | cons tc t' =>
        obtain ⟨rfl, -⟩ : ',' = tc ∧ w = t' ++ r := by simpa using ht
        exact rawFull_not_comma hraw (by rw [hm]; simp)
    · have htb : tailBoundary t = true := by
        cases t with
        | nil => rfl
        | cons tc t' =>
          rw [ht, List.cons_append] at hb
          have hword : isWordChar tc = false := by simpa [tailBoundary] using hb
          simpa [tailBoundary] using hword
      have hsome := matchCore_complete hraw htb
      rw [← hu, h] at hsome
      simp at hsome

theorem pcScan_part_none {x : List Char} (w : List Char) :
    ∀ f, pcScan f x = none →
    pcScan f (x ++ ',' :: ' ' :: w) = pcScan false w := by
  induction x with
  | nil =>
    intro f _
    rw [List.nil_append]
    have h1 : (if f = true then none else matchCore (',' :: ' ' :: w)) = none := by
      split
      · rfl
      · exact matchCore_not_letter (by decide) _
    have h2 : (if isWordChar ',' = true then none else matchCore (' ' :: w)) = none := by
      split
      · rfl
      · exact matchCore_not_letter (by decide) _
    rw [pcScan_cons_none h1, pcScan_cons_none h2,
      show isWordChar ' ' = false by decide]
  | cons c x' ih =>
    intro f hx
    cases hsc : (if f = true then none else matchCore (c :: x')) with
    | some pr =>
      rw [pcScan] at hx
      rw [hsc] at hx
      simp at hx
    | none =>
      rw [pcScan_cons_none hsc] at hx
      rw [List.cons_append]
      have h1 : (if f = true then none
          else matchCore (c :: (x' ++ ',' :: ' ' :: w))) = none := by
        split
        case isTrue => rfl
        case isFalse hf =>
          rw [if_neg hf] at hsc
          have := matchCore_append_comma (w := ' ' :: w) hsc
          simpa [List.cons_append] using this
      rw [pcScan_cons_none h1]
      exact ih (isWordChar c) hx

theorem pcScan_self {v : List Char} (hraw : rawFull v = true) :
    pcScan false v = some v := by
  have hcore := matchCore_self hraw
  cases v with
  | nil => simp [rawFull] at hraw
  | cons c v' =>
    conv_lhs => rw [pcScan]
    rw [if_neg Bool.false_ne_true, hcore]

/-- Scanning the joined output finds the final postcode when every earlier
component fails the scan on its own. -/
theorem pcScan_join {pc : List Char} (hraw : rawFull pc = true) :
    ∀ xs, (∀ x ∈ xs, pcScan false x = none) →
    pcScan false (joinCS (xs ++ [pc])) = some pc := by
  intro xs
  induction xs with
  | nil => intro _; exact pcScan_self hraw
  | cons x xs ih =>
    intro hx
    rw [List.cons_append, joinCS_cons x (xs ++ [pc]) (by simp)]
    rw [pcScan_part_none (joinCS (xs ++ [pc])) false (hx x (by simp))]
    exact ih (fun y hy => hx y (by simp [hy]))

/-! ## Shape of the assembled output -/

theorem joinCS_ne_nil {v : List Char} (hv : v ≠ []) :
    ∀ xs, joinCS (xs ++ [v]) ≠ [] := by
  intro xs
  cases xs with
  | nil => exact hv
  | cons x xs =>
    rw [List.cons_append, joinCS_cons x (xs ++ [v]) (by simp)]
    simp

theorem joinCS_no_nl {xs : List (List Char)} (h : ∀ x ∈ xs, '\n' ∉ x) :
    '\n' ∉ joinCS xs := by
  induction xs with
  | nil => simp [joinCS]
  | cons x xs ih =>
    cases xs with
    | nil => simpa [joinCS] using h x (by simp)
    | cons y ys =>
      rw [joinCS_cons x (y :: ys) (by simp)]
      intro hmem
      rcases List.mem_append.mp hmem with h1 | h2
      · exact h x (by simp) h1
      · rcases List.mem_cons.mp h2 with h2 | h2
        · exact absurd h2 (by decide)
        rcases List.mem_cons.mp h2 with h3 | h3
        · exact absurd h3 (by decide)
        · exact ih (fun z hz => h z (by simp [hz])) h3

theorem joinCS_head (x : List Char) (xs : List (List Char)) (hx : x ≠ []) :
    (joinCS (x :: xs)).head? = x.head? := by
  cases xs with
  | nil => rfl
  | cons y ys =>
    rw [joinCS_cons x (y :: ys) (by simp), head?_append_left _ _ hx]

theorem joinCS_getLast {v : List Char} (hv : v ≠ []) :
    ∀ xs, (joinCS (xs ++ [v])).getLast? = v.getLast? := by
  intro xs
  induction xs with
  | nil => rfl
  | cons x xs ih =>
    rw [List.cons_append, joinCS_cons x (xs ++ [v]) (by simp)]
    rw [show (',' :: ' ' :: joinCS (xs ++ [v])) =
      [',', ' '] ++ joinCS (xs ++ [v]) from rfl]
    rw [← List.append_assoc]
    rw [getLast?_append_left _ _ (joinCS_ne_nil hv xs)]
    exact ih

theorem linesOf_no_nl {td l : List Char} (h : l ∈ linesOf td) : '\n' ∉ l := by
  obtain ⟨-, -, -, -, -, hnl⟩ := linesOf_mem_decomp h
  exact hnl

theorem linesOf_head_not_ws {td l : List Char} (h : l ∈ linesOf td) :
    ∀ c, l.head? = some c → isJsWs c = false := by
  obtain ⟨-, r, -, rfl⟩ := linesOf_mem h
  exact fun c hc => trim_head_not_ws hc

theorem linesOf_getLast_not_ws {td l : List Char} (h : l ∈ linesOf td) :
    ∀ c, l.getLast? = some c → isJsWs c = false := by
  obtain ⟨-, r, -, rfl⟩ := linesOf_mem h
  exact fun c hc => trim_getLast_not_ws hc

theorem trimCS_eq_self {cs : List Char}
    (hh : ∀ c, cs.head? = some c → isJsWs c = false)
    (hl : ∀ c, cs.getLast? = some c → isJsWs c = false) : trimCS cs = cs := by
  have h1 : cs.dropWhile isJsWs = cs := by
    cases cs with
    | nil => rfl
    | cons c cs' => rw [List.dropWhile_cons, if_neg (by simp [hh c rfl])]
  have h2 : cs.reverse.dropWhile isJsWs = cs.reverse := by
    cases hcr : cs.reverse with
    | nil => rfl
    | cons c cs' =>
      have hcl : cs.getLast? = some c := by
        rw [← List.head?_reverse, hcr]
        rfl
      rw [List.dropWhile_cons, if_neg (by simp [hl c hcl])]
  unfold trimCS
  rw [h1, h2, List.reverse_reverse]

theorem splitOnNl_no_nl {cs : List Char} (h : '\n' ∉ cs) : splitOnNl cs = [cs] := by
  induction cs with
  | nil => rfl
  | cons c cs' ih =>
    have hc : ¬c = '\n' := fun hx => h (by simp [hx])
    have ih' := ih (fun hm => h (by simp [hm]))
    unfold splitOnNl
    rw [ih']
    simp [hc]

/-- Claim C8: for every input on which `extractAddress` locates a postcode,
running `extractAddress` again on the first call's output yields a string
whose last comma-separated component is still that postcode (full
idempotence is not claimed). -/
theorem c8_postcode_resurfaces (text : String) (k : Nat)
    (h : findPcIdx (linesOf text.data) = some k) :
    ∃ m, pcScan false ((linesOf text.data).getD k []) = some m ∧
      lastComma ((extractAddress text).data) = m ∧
      lastComma ((extractAddress (extractAddress text)).data) = m := by
  obtain ⟨hklt, hktest, hkmin⟩ := findPcIdx_spec h
  rw [pcTestB_iff_scan] at hktest
  obtain ⟨m, hm⟩ := Option.isSome_iff_exists.mp hktest
  obtain ⟨p, s, hke, -, -, -, hraw⟩ := pcScan_sound hm
  have hlineK : (linesOf text.data).getD k [] ∈ linesOf text.data := getD_mem hklt
  have hmne : m ≠ [] := by
    intro hnil
    rw [hnil] at hraw
    simp [rawFull] at hraw
  set ls := linesOf text.data with hls
  set addr := (collectAddr ls k (min 8 k) []).1 with haddr
  have hout : extractL text.data = joinCS (addr ++ [m]) := by
    unfold extractL
    simp only [← hls, h, hm]
  -- every collected line is an earlier line, so it fails the scan alone
  have haddrmem : ∀ x ∈ addr, x ∈ ls ∧ pcScan false x = none := by
    intro x hx
    obtain ⟨p0, hp0, hp0s⟩ := collectAddr_sublist ls k (min 8 k) [] (by omega)
    rw [haddr, hp0, List.append_nil] at hx
    have hxt : x ∈ ls.take k := hp0s.mem hx
    obtain ⟨j, hjlt, hjx⟩ := List.mem_iff_getElem.mp hxt
    have hjk : j < k := by
      have := hjlt
      simp only [List.length_take] at this
      omega
    have hjls : j < ls.length := by omega
    have hxj : ls.getD j [] = x := by
      rw [List.getD_eq_getElem?_getD, List.getElem?_eq_getElem hjls]
      rw [← hjx, List.getElem_take]
      rfl
    have htf := hkmin j hjk
    rw [hxj, pcTestB_iff_scan] at htf
    constructor
    · rw [← hxj]
      exact getD_mem hjls
    · cases hps : pcScan false x with
      | none => rfl
      | some pr => rw [hps] at htf; simp at htf
  have hscan_out : pcScan false (joinCS (addr ++ [m])) = some m :=
    pcScan_join hraw addr (fun x hx => (haddrmem x hx).2)
  -- the output is a single, already-trimmed line
  have hnl_out : '\n' ∉ joinCS (addr ++ [m]) := by
    refine joinCS_no_nl ?_
    intro x hx
    rcases List.mem_append.mp hx with hx | hx
    · exact linesOf_no_nl (haddrmem x hx).1
    · obtain rfl : x = m := by simpa using hx
      intro hmem
      refine linesOf_no_nl hlineK ?_
      rw [hke]
      simp only [List.append_assoc, List.mem_append]
      exact Or.inr (Or.inl hmem)
  have hhead_out : ∀ c, (joinCS (addr ++ [m])).head? = some c → isJsWs c = false := by
    intro c hc
    cases haddre : addr with
    | nil =>
      rw [haddre, List.nil_append] at hc
      obtain ⟨c0, hc0, hlet⟩ := rawFull_head hraw
      rw [show joinCS [m] = m from rfl, hc0] at hc
      obtain rfl : c0 = c := by simpa using hc
      exact not_ws_of_letter hlet
    | cons a0 addr' =>
      have ha0 : a0 ∈ ls := (haddrmem a0 (by rw [haddre]; simp)).1
      have ha0ne : a0 ≠ [] := (linesOf_mem ha0).1
      rw [haddre, List.cons_append, joinCS_head a0 _ ha0ne] at hc
      exact linesOf_head_not_ws ha0 c hc
  have hlast_out : ∀ c, (joinCS (addr ++ [m])).getLast? = some c →
      isJsWs c = false := by
    intro c hc
    rw [joinCS_getLast hmne addr] at hc
    obtain ⟨c0, hc0, hlet⟩ := rawFull_getLast hraw
    rw [hc0] at hc
    obtain rfl : c0 = c := by simpa using hc
    exact not_ws_of_letter hlet
  have hlines2 : linesOf (joinCS (addr ++ [m])) = [joinCS (addr ++ [m])] := by
    unfold linesOf
    rw [splitOnNl_no_nl hnl_out]
    simp only [List.map_cons, List.map_nil,
      trimCS_eq_self hhead_out hlast_out]
    simp [joinCS_ne_nil hmne addr]
  have htb2 : pcTestB false (joinCS (addr ++ [m])) = true := by
    rw [pcTestB_iff_scan, hscan_out]
    rfl
  have hfind2 : findPcIdx (linesOf (joinCS (addr ++ [m]))) = some 0 := by
    rw [hlines2]
    unfold findPcIdx
    rw [if_pos htb2]
  have hextract2 : extractL (joinCS (addr ++ [m])) = m := by
    unfold extractL
    dsimp only
    rw [hfind2]
    simp only [hlines2, List.getD_cons_zero, hscan_out]
    rfl
  have hlastm : lastComma m = m := by
    unfold lastComma
    rw [splitCS_no_comma m (rawFull_not_comma hraw)]
    rfl
  refine ⟨m, hm, ?_, ?_⟩
  · show lastComma (extractL text.data) = m
    rw [hout]
    exact lastComma_join (rawFull_not_comma hraw) addr
  · show lastComma (extractL (extractL text.data)) = m
    rw [hout, hextract2, hlastm]

theorem c8_postcode_resurfaces_witness :
    findPcIdx (linesOf (String.data "42 FOO ST\nEH1 1AA")) = some 1 ∧
      ∃ m, pcScan false ((linesOf (String.data "42 FOO ST\nEH1 1AA")).getD 1 []) = some m ∧
        lastComma ((extractAddress "42 FOO ST\nEH1 1AA").data) = m ∧
        lastComma ((extractAddress (extractAddress "42 FOO ST\nEH1 1AA")).data) = m :=
  ⟨by decide, c8_postcode_resurfaces "42 FOO ST\nEH1 1AA" 1 (by decide)⟩

end CourierScan
